import Mathlib

/-!
Verification of the staged computation engine in `eqasim/pipeline/pipeline.py`
and the progress server in `eqasim/pipeline/progress.py`.

The Python source is embedded shallowly:

* stage names and config keys are `String`s;
* the scalar config value type, the verification-token type and the uuid
  type are parameters `V`, `T`, `U` with decidable equality (the engine only
  ever compares these for equality);
* Python dicts whose key sets are engine-controlled are modelled as total
  functions, dicts read from disk (sidecars) as association lists;
* fallible code returns `Except`, and the engine's run is modelled phase by
  phase exactly in source order.
-/

namespace Eqasim

/-- `a` occurs strictly before `b` in `l` (first occurrences). -/
def ListBefore {α : Type} [DecidableEq α] (a b : α) (l : List α) : Prop :=
  a ∈ l ∧ b ∈ l ∧ l.indexOf a < l.indexOf b

theorem listBefore_irrefl {α : Type} [DecidableEq α] (a : α) (l : List α) :
    ¬ ListBefore a a l := by
  rintro ⟨_, _, h⟩; exact lt_irrefl _ h

theorem listBefore_head {α : Type} [DecidableEq α] {a b : α} {l : List α}
    (hab : a ≠ b) (hb : b ∈ l) : ListBefore a b (a :: l) := by
  refine ⟨List.mem_cons_self _ _, List.mem_cons_of_mem _ hb, ?_⟩
  rw [List.indexOf_cons_self]
  rw [List.indexOf_cons_ne _ hab]
  exact Nat.succ_pos _

theorem listBefore_cons {α : Type} [DecidableEq α] {a b x : α} {l : List α}
    (h : ListBefore a b l) (hbx : b ≠ x) : ListBefore a b (x :: l) := by
  obtain ⟨ha, hb, hlt⟩ := h
  by_cases hax : a = x
  · subst hax
    exact listBefore_head (fun e => hbx e.symm) hb
  · refine ⟨List.mem_cons_of_mem _ ha, List.mem_cons_of_mem _ hb, ?_⟩
    rw [List.indexOf_cons_ne _ (Ne.symm hax), List.indexOf_cons_ne _ (Ne.symm hbx)]
    exact Nat.succ_lt_succ hlt

theorem listBefore_of_cons {α : Type} [DecidableEq α] {a b x : α} {l : List α}
    (h : ListBefore a b (x :: l)) (hax : a ≠ x) : ListBefore a b l ∧ b ≠ x := by
  obtain ⟨ha, hb, hlt⟩ := h
  have ha' : a ∈ l := by
    rcases List.mem_cons.mp ha with h' | h'
    · exact absurd h' hax
    · exact h'
  rw [List.indexOf_cons_ne _ (Ne.symm hax)] at hlt
  by_cases hbx : b = x
  · subst hbx
    rw [List.indexOf_cons_self] at hlt
    omega
  · have hb' : b ∈ l := by
      rcases List.mem_cons.mp hb with h' | h'
      · exact absurd h' hbx
      · exact h'
    rw [List.indexOf_cons_ne _ (Ne.symm hbx)] at hlt
    exact ⟨⟨ha', hb', Nat.lt_of_succ_lt_succ hlt⟩, hbx⟩

theorem listBefore_ne {α : Type} [DecidableEq α] {a b : α} {l : List α}
    (h : ListBefore a b l) : a ≠ b := by
  rintro rfl; exact listBefore_irrefl a l h

/-! ### `_filter_config` and `ConfigContext` (pipeline.py lines 67-94)

`_filter_config(config, keys)` builds the dict `{key: config[key] for key in
keys}`; `ConfigContext.config(key)` raises a `PipelineException` when the key
is not in the filtered dict and returns the stored value otherwise. -/

variable {V T U : Type}

/-- `_filter_config`: keep exactly the listed keys of the flat config. -/
def filterConfig (config : String → V) (keys : List String) : List (String × V) :=
  keys.map (fun k => (k, config k))

/-- `ConfigContext.config`: raise unless the key was declared, else return it. -/
def configCtxGet (ctx : List (String × V)) (key : String) : Except Unit V :=
  match ctx.lookup key with
  | none => .error ()
  | some v => .ok v

theorem lookup_filterConfig (config : String → V) (keys : List String)
    (k : String) (hk : k ∈ keys) :
    (filterConfig config keys).lookup k = some (config k) := by
  induction keys with
  | nil => cases hk
  | cons x rest ih =>
    by_cases hxk : k = x
    · subst hxk; simp [filterConfig, List.lookup]
    · have hbeq : (k == x) = false := by simp [hxk]
      have h : k ∈ rest := by
        rcases List.mem_cons.mp hk with h' | h'
        · exact absurd h' hxk
        · exact h'
      simp only [filterConfig, List.map_cons, List.lookup, hbeq]
      exact ih h

theorem lookup_filterConfig_not_mem (config : String → V) (keys : List String)
    (k : String) (hk : k ∉ keys) :
    (filterConfig config keys).lookup k = none := by
  induction keys with
  | nil => rfl
  | cons x rest ih =>
    have hxk : k ≠ x := fun e => hk (e ▸ List.mem_cons_self x rest)
    have hbeq : (k == x) = false := by simp [hxk]
    simp only [filterConfig, List.map_cons, List.lookup, hbeq]
    exact ih (fun h => hk (List.mem_cons_of_mem _ h))

/-! ### `_flatten_config` (pipeline.py lines 21-41)

The Python queue entries are pairs `(path, item)` where `item` is a nested
dict. Because line 37 enqueues `[path] + [key]` (a two-element list whose
first element is the previous path *list*), path elements are heterogeneous:
either strings or lists. `PathItem` captures exactly that. `".".join`
raises `TypeError` as soon as an element is not a string. A nested config
node is either a scalar leaf or a dict; the source's third branch (illegal
leaf type) cannot arise for values of `NestedVal` and is therefore absent. -/

inductive PathItem where
  | str (s : String)
  | pylist (l : List PathItem)

inductive NestedVal (V : Type) where
  | scalar (v : V)
  | dict (entries : List (String × NestedVal V))

inductive FlatErr where
  | typeJoin
  | dotInKey (fullKey : String)
deriving DecidableEq

/-- The string components of a path, or `none` if some element is not a
string (Python `str.join` raises `TypeError` in that case). -/
def pathStrings : List PathItem → Option (List String)
  | [] => some []
  | .str s :: rest => (pathStrings rest).map (fun ss => s :: ss)
  | .pylist _ :: _ => none

/-- `".".join(path)`. -/
def joinPath (path : List PathItem) : Except FlatErr String :=
  match pathStrings path with
  | none => .error .typeJoin
  | some ss => .ok (String.intercalate "." ss)

/-- Python dict assignment `flat_config[k] = v`: overwrite in place if the
key exists, otherwise append. -/
def setKey (flat : List (String × V)) (k : String) (v : V) : List (String × V) :=
  if (flat.lookup k).isSome then
    flat.map (fun kv => if kv.1 = k then (k, v) else kv)
  else
    flat ++ [(k, v)]

/-- The body of the inner `for key, value in item.items()` loop: returns the
updated flat config and the queue entries appended during this item, or the
first exception raised. Line 37 of the source builds the new path as
`[path] + [key]`, i.e. `[.pylist path, .str key]`. -/
def processEntries (path : List PathItem) :
    List (String × NestedVal V) → List (String × V) →
    Except FlatErr (List (String × V) × List (List PathItem × List (String × NestedVal V)))
  | [], flat => .ok (flat, [])
  | (key, value) :: rest, flat =>
    match joinPath (path ++ [.str key]) with
    | .error e => .error e
    | .ok fullKey =>
      if '.' ∈ key.data then .error (.dotInKey fullKey)
      else
        match value with
        | .scalar v =>
          processEntries path rest (setKey flat fullKey v)
        | .dict entries =>
          match processEntries path rest flat with
          | .error e => .error e
          | .ok (flat2, items) =>
            .ok (flat2, ([.pylist path, .str key], entries) :: items)

theorem processEntries_weight {path : List PathItem}
    {es : List (String × NestedVal V)} {flat flat2 : List (String × V)}
    {items : List (List PathItem × List (String × NestedVal V))}
    (h : processEntries path es flat = .ok (flat2, items)) :
    (items.map (fun it => sizeOf it.2)).sum < sizeOf es := by
  induction es generalizing flat flat2 items with
  | nil =>
    simp only [processEntries] at h
    cases h
    simp
  | cons e rest ih =>
    obtain ⟨key, value⟩ := e
    simp only [processEntries] at h
    split at h
    · cases h
    · split at h
      · cases h
      · split at h
        · have := ih h
          simp only [List.cons.sizeOf_spec, Prod.mk.sizeOf_spec]
          omega
        · rename_i entries
          split at h
          · cases h
          · rename_i flat3 items3 hrec
            cases h
            have := ih hrec
            simp only [List.map_cons, List.sum_cons, List.cons.sizeOf_spec,
              Prod.mk.sizeOf_spec, NestedVal.dict.sizeOf_spec]
            omega

/-- The outer `while len(queue) > 0` loop of `_flatten_config`. -/
def flattenGo : List (List PathItem × List (String × NestedVal V)) →
    List (String × V) → Except FlatErr (List (String × V))
  | [], flat => .ok flat
  | (path, entries) :: rest, flat =>
    match h : processEntries path entries flat with
    | .error e => .error e
    | .ok (flat2, items) => flattenGo (rest ++ items) flat2
termination_by q _ => (q.map (fun it => sizeOf it.2)).sum
decreasing_by
  simp only [List.map_append, List.sum_append, List.map_cons, List.sum_cons]
  have := processEntries_weight h
  omega

/-- `_flatten_config`: breadth-first flattening starting from the root dict
with the empty path. -/
def flattenConfig (config : List (String × NestedVal V)) :
    Except FlatErr (List (String × V)) :=
  flattenGo [([], config)] []

/-! ### Config requirement checks (pipeline.py lines 168-222)

`config_dependencies` maps each discovered stage to its required keys with
optional defaults (`Require._config`); we carry it as an association list
`cfgDeps`. The flat user config dict is represented by its key list
`userKeys` (the values play no role in these checks). The source performs,
in order: (1) lines 170-179, raise `Missing config keys` if any required key
is not in the config — note this runs *before* defaults are applied; (2)
lines 181-205, `default_values` is keyed by the *config* keys and collects,
per key, the distinct non-null declared defaults, raising on a key with more
than one; (3) lines 207-210, fill defaults for config keys not present in
the config — a no-op, since it iterates over keys of `default_values`,
which are exactly the config keys; (4) lines 212-222, re-check presence. -/

inductive CfgErr where
  | missingKeys
  | defaultConflict
  | missingAfterDefaults
deriving DecidableEq

/-- The distinct non-null default values declared for key `k` across all
stages (the key set of `default_values[k]` in the source). -/
def declaredDefaults [DecidableEq V]
    (cfgDeps : List (String × List (String × Option V)))
    (k : String) : List V :=
  (cfgDeps.flatMap (fun sd => sd.2.filterMap
    (fun kv => if kv.1 = k then kv.2 else none))).dedup

/-- Lines 168-222 of `run`: missing-key check, default-value consistency
check, default filling, and the post-fill presence check. Returns the key
set of the updated config. -/
def checkConfig [DecidableEq V]
    (cfgDeps : List (String × List (String × Option V)))
    (userKeys : List String) : Except CfgErr (List String) :=
  if cfgDeps.any (fun sd => sd.2.any (fun kv => kv.1 ∉ userKeys)) then
    .error .missingKeys
  else
    if userKeys.any (fun k => 1 < (declaredDefaults cfgDeps k).length) then
      .error .defaultConflict
    else
      let filled := userKeys ++ userKeys.filter (fun k => k ∉ userKeys)
      if cfgDeps.any (fun sd => sd.2.any (fun kv => kv.1 ∉ filled)) then
        .error .missingAfterDefaults
      else
        .ok filled

/-! ### `_flatten_dag` (pipeline.py lines 43-65)

`dependencies` is a dict mapping each stage to its set of upstream names; we
carry its key list `keys` and the lookup function `deps`. The inner `for`
loop iterates over a copy of `remaining`, appending any stage whose
dependencies are all already in `sequence` (which grows *during* the pass)
and removing it from `remaining`. The outer loop errors when a full pass
makes no progress. -/

/-- One iteration of the inner `for item in remaining[:]` loop: returns the
new `remaining` and the new `sequence`. -/
def passOnce (deps : String → List String) :
    List String → List String → List String × List String
  | [], seqAcc => ([], seqAcc)
  | x :: rest, seqAcc =>
    if ∀ d ∈ deps x, d ∈ seqAcc then
      passOnce deps rest (seqAcc ++ [x])
    else
      let p := passOnce deps rest seqAcc
      (x :: p.1, p.2)

theorem passOnce_length (deps : String → List String)
    (rem seqAcc : List String) :
    (passOnce deps rem seqAcc).1.length ≤ rem.length := by
  induction rem generalizing seqAcc with
  | nil => simp [passOnce]
  | cons x rest ih =>
    simp only [passOnce]
    split
    · exact Nat.le_succ_of_le (ih _)
    · simpa using Nat.succ_le_succ (ih seqAcc)

/-- The outer `while len(remaining) > 0` loop. -/
def flattenDagGo (deps : String → List String) :
    List String → List String → Except Unit (List String)
  | remaining, seqAcc =>
    if remaining = [] then .ok seqAcc
    else
      if (passOnce deps remaining seqAcc).1.length = remaining.length then
        .error ()
      else
        flattenDagGo deps (passOnce deps remaining seqAcc).1
          (passOnce deps remaining seqAcc).2
termination_by remaining _ => remaining.length
decreasing_by
  have := passOnce_length deps remaining seqAcc
  omega

/-- `_flatten_dag`: ordering the key set of the dependency dict. -/
def flattenDag (keys : List String) (deps : String → List String) :
    Except Unit (List String) :=
  flattenDagGo deps keys []

/-- A (non-empty) path in the dependency graph: `DepPath deps a b` means one
can reach `b` from `a` following edges `d → s` with `d ∈ deps s`. -/
inductive DepPath (deps : String → List String) : String → String → Prop
  | single {a b : String} : a ∈ deps b → DepPath deps a b
  | tail {a b c : String} : DepPath deps a b → b ∈ deps c → DepPath deps a c

/-- The dependency relation has a cycle. -/
def HasCycle (deps : String → List String) : Prop :=
  ∃ s, DepPath deps s s

/-- Every declared upstream of every member of `seq` occurs strictly before
it in `seq` — the correctness property of a topological order. -/
def TopoSorted (deps : String → List String) (seq : List String) : Prop :=
  ∀ s ∈ seq, ∀ d ∈ deps s, ListBefore d s seq

/-- The dependency mapping restricted to `keys` has a cycle. -/
def CyclicOn (keys : List String) (deps : String → List String) : Prop :=
  ∃ s ∈ keys, DepPath deps s s

theorem listBefore_trans {α : Type} [DecidableEq α] {a b c : α} {l : List α}
    (h₁ : ListBefore a b l) (h₂ : ListBefore b c l) : ListBefore a c l :=
  ⟨h₁.1, h₂.2.1, lt_trans h₁.2.2 h₂.2.2⟩

theorem listBefore_append_left {α : Type} [DecidableEq α] {a b : α}
    {l l₂ : List α} (h : ListBefore a b l) : ListBefore a b (l ++ l₂) := by
  obtain ⟨ha, hb, hlt⟩ := h
  refine ⟨List.mem_append_left _ ha, List.mem_append_left _ hb, ?_⟩
  rw [List.indexOf_append_of_mem ha, List.indexOf_append_of_mem hb]
  exact hlt

theorem listBefore_append_last {α : Type} [DecidableEq α] {a x : α}
    {l : List α} (ha : a ∈ l) (hx : x ∉ l) : ListBefore a x (l ++ [x]) := by
  refine ⟨List.mem_append_left _ ha, List.mem_append_right _ (List.mem_singleton_self x), ?_⟩
  rw [List.indexOf_append_of_mem ha, List.indexOf_append_of_not_mem hx]
  have := List.indexOf_lt_length.mpr ha
  simp only [List.indexOf_cons_self]
  omega

theorem passOnce_perm (deps : String → List String)
    (rem seqAcc : List String) :
    ((passOnce deps rem seqAcc).2 ++ (passOnce deps rem seqAcc).1).Perm
      (seqAcc ++ rem) := by
  induction rem generalizing seqAcc with
  | nil => simp [passOnce]
  | cons x rest ih =>
    simp only [passOnce]
    split
    · calc ((passOnce deps rest (seqAcc ++ [x])).2 ++
            (passOnce deps rest (seqAcc ++ [x])).1).Perm
            ((seqAcc ++ [x]) ++ rest) := ih _
        _ = seqAcc ++ (x :: rest) := by simp
    · have h1 : ((passOnce deps rest seqAcc).2 ++
          x :: (passOnce deps rest seqAcc).1).Perm
          (x :: ((passOnce deps rest seqAcc).2 ++ (passOnce deps rest seqAcc).1)) :=
        List.perm_middle
      have h2 := List.Perm.cons x (ih seqAcc)
      have h3 : (seqAcc ++ x :: rest).Perm (x :: (seqAcc ++ rest)) :=
        List.perm_middle
      exact h1.trans (h2.trans h3.symm)

theorem passOnce_sublist (deps : String → List String)
    (rem seqAcc : List String) :
    (passOnce deps rem seqAcc).1.Sublist rem := by
  induction rem generalizing seqAcc with
  | nil => simp [passOnce]
  | cons x rest ih =>
    simp only [passOnce]
    split
    · exact List.Sublist.cons x (ih _)
    · exact List.Sublist.cons₂ x (ih seqAcc)

theorem passOnce_good (deps : String → List String)
    (rem seqAcc : List String)
    (hgood : ∀ s ∈ seqAcc, ∀ d ∈ deps s, ListBefore d s seqAcc)
    (hnd : (seqAcc ++ rem).Nodup) :
    ∀ s ∈ (passOnce deps rem seqAcc).2, ∀ d ∈ deps s,
      ListBefore d s (passOnce deps rem seqAcc).2 := by
  induction rem generalizing seqAcc with
  | nil => simpa [passOnce] using hgood
  | cons x rest ih =>
    simp only [passOnce]
    split
    · rename_i hins
      have hxnot : x ∉ seqAcc := by
        have := List.disjoint_of_nodup_append hnd
        exact fun hx => this hx (List.mem_cons_self x rest)
      refine ih (seqAcc ++ [x]) ?_ ?_
      · intro s hs d hd
        rcases List.mem_append.mp hs with h | h
        · exact listBefore_append_left (hgood s h d hd)
        · have : s = x := by simpa using h
          subst this
          exact listBefore_append_last (hins d hd) hxnot
      · have : (seqAcc ++ x :: rest).Perm ((seqAcc ++ [x]) ++ rest) := by
          simp
        exact this.nodup hnd
    · exact ih seqAcc hgood
        ((List.Sublist.append_left (List.sublist_cons_self x rest) seqAcc).nodup hnd)

theorem flattenDagGo_sound (deps : String → List String) :
    ∀ rem acc, ∀ seq, flattenDagGo deps rem acc = .ok seq →
      (∀ s ∈ acc, ∀ d ∈ deps s, ListBefore d s acc) → (acc ++ rem).Nodup →
      seq.Perm (acc ++ rem) ∧ TopoSorted deps seq := by
  intro rem acc
  induction rem, acc using flattenDagGo.induct deps with
  | case1 acc =>
    intro seq h hInv _
    rw [flattenDagGo] at h
    simp only [if_pos rfl] at h
    cases h
    exact ⟨by simp, by simpa [TopoSorted] using hInv⟩
  | case2 rem acc h1 h2 =>
    intro seq h
    rw [flattenDagGo] at h
    simp only [if_neg h1, if_pos h2] at h
    exact fun _ _ => Except.noConfusion h
  | case3 rem acc h1 h2 ih =>
    intro seq h hInv hNd
    rw [flattenDagGo] at h
    simp only [if_neg h1, if_neg h2] at h
    have hNd' : ((passOnce deps rem acc).2 ++ (passOnce deps rem acc).1).Nodup :=
      (passOnce_perm deps rem acc).symm.nodup hNd
    obtain ⟨hperm, hts⟩ := ih seq h (passOnce_good deps rem acc hInv hNd) hNd'
    exact ⟨hperm.trans (passOnce_perm deps rem acc), hts⟩

theorem passOnce_progress (deps : String → List String)
    (rem seqAcc : List String) (x : String) (hx : x ∈ rem)
    (hins : ∀ d ∈ deps x, d ∈ seqAcc) :
    (passOnce deps rem seqAcc).1.length < rem.length := by
  induction rem generalizing seqAcc with
  | nil => cases hx
  | cons y rest ih =>
    simp only [passOnce]
    split
    · have := passOnce_length deps rest (seqAcc ++ [y])
      simp only [List.length_cons]
      omega
    · rename_i hy
      have hxy : x ≠ y := by
        rintro rfl; exact hy hins
      have hx' : x ∈ rest := by
        rcases List.mem_cons.mp hx with h | h
        · exact absurd h hxy
        · exact h
      have := ih seqAcc hx' hins
      simp only [List.length_cons]
      omega

theorem cycle_of_stuck (deps : String → List String) (rem : List String)
    (hne : rem ≠ []) (hstuck : ∀ x ∈ rem, ∃ d ∈ deps x, d ∈ rem) :
    ∃ s ∈ rem, DepPath deps s s := by
  classical
  obtain ⟨x₀, hx₀⟩ := List.exists_mem_of_ne_nil rem hne
  set f : String → String := fun x =>
    if h : ∃ d ∈ deps x, d ∈ rem then h.choose else x₀ with hf
  have hfspec : ∀ x ∈ rem, f x ∈ deps x ∧ f x ∈ rem := by
    intro x hx
    have hex := hstuck x hx
    rw [hf]
    simp only [dif_pos hex]
    obtain ⟨h1, h2⟩ := hex.choose_spec
    exact ⟨h1, h2⟩
  set g : Nat → String := fun n => f^[n] x₀ with hg
  have hgrem : ∀ n, g n ∈ rem := by
    intro n
    induction n with
    | zero => simpa [hg] using hx₀
    | succ m ihm =>
      have : g (m + 1) = f (g m) := by
        rw [hg]; simp [Function.iterate_succ_apply']
      rw [this]
      exact (hfspec _ ihm).2
  have hgd : ∀ n, g (n + 1) ∈ deps (g n) := by
    intro n
    have : g (n + 1) = f (g n) := by
      rw [hg]; simp [Function.iterate_succ_apply']
    rw [this]
    exact (hfspec _ (hgrem n)).1
  have hpath : ∀ k i, DepPath deps (g (i + k + 1)) (g i) := by
    intro k
    induction k with
    | zero => intro i; exact DepPath.single (hgd i)
    | succ m ihm =>
      intro i
      have h1 : DepPath deps (g (i + m + 2)) (g (i + 1)) := by
        have := ihm (i + 1)
        have e : i + 1 + m + 1 = i + m + 2 := by omega
        rwa [e] at this
      have e2 : i + (m + 1) + 1 = i + m + 2 := by omega
      rw [e2]
      exact DepPath.tail h1 (hgd i)
  have hcard : rem.toFinset.card < (Finset.univ : Finset (Fin (rem.length + 1))).card := by
    have := rem.toFinset_card_le
    simp only [Finset.card_univ, Fintype.card_fin]
    omega
  obtain ⟨i, -, j, -, hij, heq⟩ :=
    Finset.exists_ne_map_eq_of_card_lt_of_maps_to hcard
      (fun (i : Fin (rem.length + 1)) _ => List.mem_toFinset.mpr (hgrem i))
  rcases Ne.lt_or_lt hij with hlt | hlt
  · refine ⟨g i, hgrem i, ?_⟩
    have := hpath (j - i - 1) i
    have e : (i : Nat) + ((j : Nat) - (i : Nat) - 1) + 1 = (j : Nat) := by omega
    rw [e] at this
    rw [← heq] at this
    exact this
  · refine ⟨g j, hgrem j, ?_⟩
    have := hpath (i - j - 1) j
    have e : (j : Nat) + ((i : Nat) - (j : Nat) - 1) + 1 = (i : Nat) := by omega
    rw [e] at this
    rw [heq] at this
    exact this

theorem flattenDagGo_complete (deps : String → List String) :
    ∀ rem acc,
      (∀ s ∈ rem, ∀ d ∈ deps s, d ∈ acc ++ rem) →
      (¬ ∃ s ∈ rem, DepPath deps s s) →
      ∃ seq, flattenDagGo deps rem acc = .ok seq := by
  intro rem acc
  induction rem, acc using flattenDagGo.induct deps with
  | case1 acc =>
    intro _ _
    refine ⟨acc, ?_⟩
    rw [flattenDagGo]
    simp
  | case2 rem acc h1 h2 =>
    intro hclosed hnc
    exfalso
    apply hnc
    apply cycle_of_stuck deps rem h1
    intro x hx
    have hnoins : ¬ ∀ d ∈ deps x, d ∈ acc := by
      intro hins
      have := passOnce_progress deps rem acc x hx hins
      omega
    push_neg at hnoins
    obtain ⟨d, hd, hdacc⟩ := hnoins
    refine ⟨d, hd, ?_⟩
    rcases List.mem_append.mp (hclosed x hx d hd) with h | h
    · exact absurd h hdacc
    · exact h
  | case3 rem acc h1 h2 ih =>
    intro hclosed hnc
    have hsub := passOnce_sublist deps rem acc
    have hmem : ∀ y, y ∈ acc ++ rem ↔
        y ∈ (passOnce deps rem acc).2 ++ (passOnce deps rem acc).1 := by
      intro y
      exact ⟨fun h => (passOnce_perm deps rem acc).mem_iff.mpr h,
        fun h => (passOnce_perm deps rem acc).mem_iff.mp h⟩
    obtain ⟨seq, hseq⟩ := ih
      (fun s hs d hd => (hmem d).mp
        (hclosed s (hsub.mem hs) d hd))
      (fun ⟨s, hs, hp⟩ => hnc ⟨s, hsub.mem hs, hp⟩)
    refine ⟨seq, ?_⟩
    rw [flattenDagGo]
    simp only [if_neg h1, if_neg h2]
    exact hseq

theorem depPath_listBefore (deps : String → List String) (seq : List String)
    (hts : TopoSorted deps seq) :
    ∀ a b, DepPath deps a b → b ∈ seq → ListBefore a b seq := by
  intro a b hp
  induction hp with
  | single h =>
    intro hb
    exact hts _ hb _ h
  | tail hp hbc ihp =>
    intro hc
    rename_i b' c'
    have h1 := hts _ hc _ hbc
    exact listBefore_trans (ihp h1.1) h1

theorem flattenDag_sound (keys : List String) (deps : String → List String)
    (seq : List String) (hnd : keys.Nodup)
    (h : flattenDag keys deps = .ok seq) :
    seq.Perm keys ∧ TopoSorted deps seq := by
  have := flattenDagGo_sound deps keys [] seq h (by intro s hs; cases hs)
    (by simpa using hnd)
  simpa using this

theorem flattenDag_complete (keys : List String) (deps : String → List String)
    (hclosed : ∀ s ∈ keys, ∀ d ∈ deps s, d ∈ keys)
    (hnc : ¬ CyclicOn keys deps) :
    ∃ seq, flattenDag keys deps = .ok seq :=
  flattenDagGo_complete deps keys []
    (fun s hs d hd => by simpa using hclosed s hs d hd) hnc

theorem flattenDag_cyclic_error (keys : List String)
    (deps : String → List String) (hnd : keys.Nodup)
    (hc : CyclicOn keys deps) : flattenDag keys deps = .error () := by
  cases h : flattenDag keys deps with
  | ok seq =>
    exfalso
    obtain ⟨hperm, hts⟩ := flattenDag_sound keys deps seq hnd h
    obtain ⟨s, hs, hp⟩ := hc
    have hsseq : s ∈ seq := hperm.mem_iff.mpr hs
    exact listBefore_irrefl s seq (depPath_listBefore deps seq hts s s hp hsseq)
  | error e => rfl

/-! ### Staleness analysis (pipeline.py lines 227-318)

Per-stage on-disk state: the sidecar file `S_config.yml` (modelled as
`Option Sidecar`, `none` covering both a missing file and one that lacks an
engine field, i.e. `config_valid = False`), the result file `S_result.p`
and the cache directory `S_cache`. A sidecar stores the stage uuid, the
`__expected_uuids` dict, the `__verification_token`, and the filtered config
values of the last run. The engine dicts `expected_uuids` / `current_uuids`
(lines 233-234) are total maps initialised to `{}` / `None`; their key set
is exactly the discovered stage list, so the lookup
`current_uuids[parent_stage]` on line 315 raises `KeyError` when a sidecar
names an unknown parent — modelled by `Except`. -/

structure Sidecar (V T U : Type) where
  uuid : U
  expected : List (String × Option U)
  token : Option T
  cfg : List (String × V)
deriving DecidableEq

structure StageDisk (V T U : Type) where
  sidecar : Option (Sidecar V T U)
  hasResult : Bool
  hasCache : Bool
deriving DecidableEq

structure ScanState (V T U : Type) where
  stale : List String
  exp : String → List (String × Option U)
  cur : String → Option U

variable [DecidableEq V] [DecidableEq T] [DecidableEq U]

/-- The body of the first `for stage in sequence:` loop (lines 236-300):
sidecar validity, result/cache presence, verification token and config
comparisons, with the `is_requested` guards exactly as in the source. -/
def scanStep (ws : String → StageDisk V T U) (vtok : String → Option T)
    (cfgKeys : String → List String) (config : String → V)
    (requested : List String) (s : String) (st : ScanState V T U) :
    ScanState V T U :=
  let d := ws s
  let isReq := s ∈ requested
  let st1 : ScanState V T U :=
    match d.sidecar with
    | none => if ¬ isReq then { st with stale := st.stale.insert s } else st
    | some _ => st
  let st2 := if ¬ d.hasResult ∧ ¬ isReq then
    { st1 with stale := st1.stale.insert s } else st1
  let st3 := if ¬ d.hasCache ∧ ¬ isReq then
    { st2 with stale := st2.stale.insert s } else st2
  match d.sidecar with
  | none => st3
  | some sc =>
    let st4 : ScanState V T U :=
      { st3 with exp := Function.update st3.exp s sc.expected
                 cur := Function.update st3.cur s (some sc.uuid) }
    let st5 := if ¬ (vtok s = sc.token) ∧ ¬ isReq then
      { st4 with stale := st4.stale.insert s } else st4
    if ∃ k ∈ cfgKeys s, ¬ (sc.cfg.lookup k = some (config k)) then
      { st5 with stale := st5.stale.insert s }
    else st5

/-- The first `for stage in sequence:` loop. -/
def scanStale (ws : String → StageDisk V T U) (vtok : String → Option T)
    (cfgKeys : String → List String) (config : String → V)
    (requested : List String) :
    List String → ScanState V T U → ScanState V T U
  | [], st => st
  | s :: rest, st =>
    scanStale ws vtok cfgKeys config requested rest
      (scanStep ws vtok cfgKeys config requested s st)

/-- Initial analizer state: `stale_stages = set(requested_stages)`,
`expected_uuids = {stage: {} ...}`, `current_uuids = {stage: None ...}`. -/
def initScan (requested : List String) : ScanState V T U :=
  ⟨requested, fun _ => [], fun _ => none⟩

/-- Lines 313-318: walk the stored `expected_uuids` items of one stage,
reporting `true` at the first entry whose stored uuid differs from the
parent's current uuid (the loop `break`s there); looking up a parent that
is not a key of `current_uuids` raises `KeyError`. -/
def checkExpected (seqKeys : List String) (cur : String → Option U) :
    List (String × Option U) → Except Unit Bool
  | [] => .ok false
  | (p, eu) :: rest =>
    if p ∈ seqKeys then
      if ¬ (eu = cur p) then .ok true else checkExpected seqKeys cur rest
    else .error ()

/-- The second `for stage in sequence:` loop (lines 302-318): mark a stage
stale when a declared parent is stale, then (if still not stale) when some
recorded expected uuid differs from the parent's current uuid. When the
parent check fires it inserts the stage, so the guard of the second block is
then false; the definition reflects that by recursing directly in that
branch. -/
def propagateStale (seqKeys : List String) (deps : String → List String)
    (exp : String → List (String × Option U)) (cur : String → Option U) :
    List String → List String → Except Unit (List String)
  | [], stale => .ok stale
  | s :: rest, stale =>
    if s ∉ stale ∧ ∃ p ∈ deps s, p ∈ stale then
      propagateStale seqKeys deps exp cur rest (stale.insert s)
    else
      if s ∉ stale then
        match checkExpected seqKeys cur (exp s) with
        | .error e => .error e
        | .ok true => propagateStale seqKeys deps exp cur rest (stale.insert s)
        | .ok false => propagateStale seqKeys deps exp cur rest stale
      else propagateStale seqKeys deps exp cur rest stale

/-- Lines 227-318: the full staleness analysis over the topological
sequence, returning the scan state together with the final stale set. -/
def computeStale (seq : List String) (deps : String → List String)
    (cfgKeys : String → List String) (vtok : String → Option T)
    (config : String → V) (requested : List String)
    (ws : String → StageDisk V T U) :
    Except Unit (ScanState V T U × List String) :=
  let st := scanStale ws vtok cfgKeys config requested seq (initScan requested)
  match propagateStale seq deps st.exp st.cur seq st.stale with
  | .error e => .error e
  | .ok stale => .ok (st, stale)

/-! ### Execution (pipeline.py lines 320-357)

For each stale stage in sequence order: raise `NoExecutor` when the module
has no `execute`; remove and recreate the cache directory; run `execute`
(an exception there aborts the run); pickle the result; mint a fresh uuid;
write the sidecar. The trace records the disk events in program order. -/

inductive Event where
  | clearedCache (s : String)
  | wroteResult (s : String)
  | wroteSidecar (s : String)
deriving DecidableEq

inductive RunErr where
  | keyError
  | noExecutor (s : String)
  | stageFailed (s : String)
  | cfgMissingKeys
  | cfgDefaultConflict
  | cfgMissingAfterDefaults
  | circularDependency
deriving DecidableEq

structure ExecOut (V T U : Type) where
  ws : String → StageDisk V T U
  cur : String → Option U
  nextId : Nat
  trace : List Event
  err : Option RunErr

/-- The `for stage in sequence:` execution loop. `hasExec s` models
`"execute" in module.__dict__`, `execOk s` whether the `execute` hook
returns normally, and `fresh` the stream of `uuid.uuid1()` values. -/
def execPhase (deps : String → List String) (cfgKeys : String → List String)
    (vtok : String → Option T) (config : String → V)
    (hasExec execOk : String → Bool) (fresh : Nat → U) (stale : List String) :
    List String → Nat → (String → Option U) → (String → StageDisk V T U) →
    List Event → ExecOut V T U
  | [], n, cur, ws, tr => ⟨ws, cur, n, tr, none⟩
  | s :: rest, n, cur, ws, tr =>
    if s ∈ stale then
      if ¬ hasExec s then ⟨ws, cur, n, tr, some (.noExecutor s)⟩
      else
        let ws1 := Function.update ws s { ws s with hasCache := true }
        let tr1 := tr ++ [.clearedCache s]
        if ¬ execOk s then ⟨ws1, cur, n, tr1, some (.stageFailed s)⟩
        else
          let ws2 := Function.update ws1 s { ws1 s with hasResult := true }
          let u := fresh n
          let cur1 := Function.update cur s (some u)
          let sc : Sidecar V T U :=
            { uuid := u
              expected := (deps s).map (fun p => (p, cur1 p))
              token := vtok s
              cfg := filterConfig config (cfgKeys s) }
          let ws3 := Function.update ws2 s
            { sidecar := some sc, hasResult := true, hasCache := true }
          execPhase deps cfgKeys vtok config hasExec execOk fresh stale rest
            (n + 1) cur1 ws3 (tr1 ++ [.wroteResult s, .wroteSidecar s])
    else
      execPhase deps cfgKeys vtok config hasExec execOk fresh stale rest
        n cur ws tr

structure RunOut (V T U : Type) where
  stale : List String
  scanExp : String → List (String × Option U)
  scanCur : String → Option U
  ws : String → StageDisk V T U
  cur : String → Option U
  trace : List Event
  err : Option RunErr

/-- Lines 227-357 of `run`: staleness analysis over a given topological
sequence followed by execution of the stale stages. -/
def runOnce (seq : List String) (deps : String → List String)
    (cfgKeys : String → List String) (vtok : String → Option T)
    (config : String → V) (requested : List String)
    (hasExec execOk : String → Bool) (fresh : Nat → U)
    (ws0 : String → StageDisk V T U) : RunOut V T U :=
  match computeStale seq deps cfgKeys vtok config requested ws0 with
  | .error _ =>
    ⟨[], fun _ => [], fun _ => none, ws0, fun _ => none, [], some .keyError⟩
  | .ok (st, stale) =>
    let eo := execPhase deps cfgKeys vtok config hasExec execOk fresh stale
      seq 0 st.cur ws0 []
    ⟨stale, st.exp, st.cur, eo.ws, eo.cur, eo.trace, eo.err⟩

/-- The whole of `run` after config flattening and stage discovery
(pipeline.py lines 168-357): requirement checks over the discovered stages
`keys` (with `reqs s` the `Require._config` dict of stage `s` and
`userKeys` the key set of the flat user config), DAG flattening, staleness
analysis, and execution. Phase errors abort before any later phase. -/
def runPipeline (keys : List String)
    (reqs : String → List (String × Option V)) (deps : String → List String)
    (vtok : String → Option T) (userKeys : List String) (config : String → V)
    (requested : List String) (hasExec execOk : String → Bool)
    (fresh : Nat → U) (ws0 : String → StageDisk V T U) : RunOut V T U :=
  let abortWith : RunErr → RunOut V T U := fun e =>
    ⟨[], fun _ => [], fun _ => none, ws0, fun _ => none, [], some e⟩
  match checkConfig (keys.map (fun s => (s, reqs s))) userKeys with
  | .error .missingKeys => abortWith .cfgMissingKeys
  | .error .defaultConflict => abortWith .cfgDefaultConflict
  | .error .missingAfterDefaults => abortWith .cfgMissingAfterDefaults
  | .ok _ =>
    match flattenDag keys deps with
    | .error _ => abortWith .circularDependency
    | .ok seq =>
      runOnce seq deps (fun s => (reqs s).map (fun kv => kv.1)) vtok config
        requested hasExec execOk fresh ws0

/-- `t` lies downstream of `s` (is reachable from `s` along declared
upstream edges) within the discovered stage set. -/
inductive Reaches (deps : String → List String) (keys : List String) :
    String → String → Prop
  | refl (s : String) : Reaches deps keys s s
  | step {s p t : String} : Reaches deps keys s p → p ∈ deps t → t ∈ keys →
      Reaches deps keys s t

deriving instance DecidableEq for Except

/-- A stage at which every per-stage staleness test of the first loop is
negative: the step leaves the stale set unchanged. -/
def ScanPasses (d : StageDisk V T U) (tok : Option T) (keys : List String)
    (config : String → V) (isReq : Prop) : Prop :=
  (d.sidecar = none → isReq) ∧ (d.hasResult = false → isReq) ∧
  (d.hasCache = false → isReq) ∧
  (∀ sc, d.sidecar = some sc →
    ((¬ tok = sc.token) → isReq) ∧ ∀ k ∈ keys, sc.cfg.lookup k = some (config k))

/-- The stage an execution-trace event belongs to. -/
def eventStage : Event → String
  | .clearedCache s => s
  | .wroteResult s => s
  | .wroteSidecar s => s

/-! ### Progress server (progress.py lines 8-99)

`ProgressServer.running` maps tracker uuids to dicts with fields `total`,
`desc`, `current`, `last_print`, `interval`, `start_time`. Times are exact
rationals; every Python division is modelled with an explicit zero check,
because dividing a float by `0.0` raises `ZeroDivisionError` in Python
(`progress = current / total` on line 78, `speed = current / runtime` and
`1.0 / speed` on lines 92-97; all three are exact at the values relevant
here: `0 / x = 0`, `0 ≥ 1` is false, and `1 / 0` raises). The printed line
is modelled structurally; the `%`-format rendering itself is out of scope.
`pyRound` is Python 3 `round` (banker's rounding, used for the tick count).
-/

structure Tracker where
  total : Option Int
  desc : Option String
  current : Int
  lastPrint : ℚ
  interval : ℚ
  startTime : ℚ
deriving DecidableEq

/-- Python 3 `round`: round half to even. -/
def pyRound (q : ℚ) : Int :=
  let f := ⌊q⌋
  if q - f < 1/2 then f
  else if q - f > 1/2 then f + 1
  else if Even f then f else f + 1

inductive Rate where
  | itPerSec (r : ℚ)
  | secPerIt (r : ℚ)
deriving DecidableEq

structure PLine where
  header : String
  counter : String ⊕ (Int × Int × ℚ × Int)
  rate : Rate
deriving DecidableEq

/-- `ProgressServer.initialize` (lines 37-45): create the tracker with
`current = 0`, `last_print = 0` and a default interval of one second. -/
def initTracker (total : Option Int) (desc : Option String)
    (interval : Option ℚ) (now : ℚ) : Tracker :=
  { total := total, desc := desc, current := 0, lastPrint := 0
    interval := interval.getD 1, startTime := now }

/-- `ProgressServer.print` (lines 69-99) for one tracker: build the line or
raise `ZeroDivisionError`. -/
def printTracker (item : Tracker) (now : ℚ) : Except Unit PLine := do
  let header := item.desc.getD "Progress"
  let counter : String ⊕ (Int × Int × ℚ × Int) ←
    match item.total with
    | none => pure (Sum.inl (toString item.current))
    | some total =>
      if total = 0 then throw ()
      else
        let pr : ℚ := (item.current : ℚ) / (total : ℚ)
        pure (Sum.inr (item.current, total, 100 * pr, pyRound (pr * 10)))
  let runtime := now - item.startTime
  if runtime = 0 then throw ()
  else
    let speed : ℚ := (item.current : ℚ) / runtime
    if speed ≥ 1 then
      pure ⟨header, counter, .itPerSec speed⟩
    else
      if speed = 0 then throw ()
      else pure ⟨header, counter, .secPerIt (1 / speed)⟩

/-- `ProgressServer.print` with the `if uuid in self.running` guard: an
unknown uuid prints nothing. -/
def serverPrint (running : List (String × Tracker)) (uuid : String)
    (now : ℚ) : Except Unit (List PLine) :=
  match running.lookup uuid with
  | some item => (printTracker item now).map (fun line => [line])
  | none => .ok []

/-- Replace the stored tracker for a uuid (Python dict item mutation). -/
def setTracker (running : List (String × Tracker)) (uuid : String)
    (item : Tracker) : List (String × Tracker) :=
  running.map (fun kv => if kv.1 = uuid then (uuid, item) else kv)

/-- `ProgressServer.finalize` (lines 47-53): when the uuid is known, reset
`last_print` to 0, force a print, and drop the tracker; otherwise do
nothing. Returns the new tracker map and the emitted lines. -/
def serverFinalize (running : List (String × Tracker)) (uuid : String)
    (now : ℚ) : Except Unit (List (String × Tracker) × List PLine) :=
  match running.lookup uuid with
  | some item =>
    let running1 := setTracker running uuid { item with lastPrint := 0 }
    match serverPrint running1 uuid now with
    | .error e => .error e
    | .ok lines =>
      .ok (running1.filter (fun kv => ¬ kv.1 = uuid), lines)
  | none => .ok (running, [])

section ScanLemmas

variable (ws : String → StageDisk V T U) (vtok : String → Option T)
  (cfgKeys : String → List String) (config : String → V)
  (requested : List String)

theorem scanStep_stale_super (s x : String) (st : ScanState V T U)
    (hx : x ∈ st.stale) :
    x ∈ (scanStep ws vtok cfgKeys config requested s st).stale := by
  simp only [scanStep]
  cases hsc : (ws s).sidecar <;>
    simp only [hsc, apply_ite ScanState.stale] <;> split_ifs <;>
    simp_all [List.mem_insert_iff]

theorem scanStep_stale_sub (s x : String) (st : ScanState V T U)
    (hx : x ∈ (scanStep ws vtok cfgKeys config requested s st).stale) :
    x ∈ st.stale ∨ x = s := by
  simp only [scanStep] at hx
  cases hsc : (ws s).sidecar <;>
    rw [hsc] at hx <;>
    simp only [apply_ite ScanState.stale] at hx <;> split_ifs at hx <;>
    simp_all [List.mem_insert_iff] <;> tauto

theorem scanStep_exp (s : String) (st : ScanState V T U) :
    (scanStep ws vtok cfgKeys config requested s st).exp =
      (match (ws s).sidecar with
        | some sc => Function.update st.exp s sc.expected
        | none => st.exp) := by
  simp only [scanStep]
  cases hsc : (ws s).sidecar <;>
    simp only [hsc] <;> split_ifs <;> rfl

theorem scanStep_cur (s : String) (st : ScanState V T U) :
    (scanStep ws vtok cfgKeys config requested s st).cur =
      (match (ws s).sidecar with
        | some sc => Function.update st.cur s (some sc.uuid)
        | none => st.cur) := by
  simp only [scanStep]
  cases hsc : (ws s).sidecar <;>
    simp only [hsc] <;> split_ifs <;> rfl

theorem scanStep_cfg_mark (s : String) (st : ScanState V T U)
    (sc : Sidecar V T U) (hsc : (ws s).sidecar = some sc)
    (hk : ∃ k ∈ cfgKeys s, ¬ (sc.cfg.lookup k = some (config k))) :
    s ∈ (scanStep ws vtok cfgKeys config requested s st).stale := by
  simp only [scanStep, hsc]
  split_ifs <;> simp_all [List.mem_insert_iff]

theorem scanStep_invalid_mark (s : String) (st : ScanState V T U)
    (hsc : (ws s).sidecar = none) (hreq : s ∉ requested) :
    s ∈ (scanStep ws vtok cfgKeys config requested s st).stale := by
  simp only [scanStep, hsc]
  split_ifs <;> simp_all [List.mem_insert_iff]

theorem scanStep_no_mark (s : String) (st : ScanState V T U)
    (hp : ScanPasses (ws s) (vtok s) (cfgKeys s) config (s ∈ requested)) :
    (scanStep ws vtok cfgKeys config requested s st).stale = st.stale := by
  obtain ⟨h1, h2, h3, h4⟩ := hp
  by_cases hreq : s ∈ requested
  · simp only [scanStep]
    cases hsc : (ws s).sidecar with
    | none =>
      simp only [hsc]
      rw [if_neg (by simp [hreq]), if_neg (by simp [hreq]), if_neg (by simp [hreq])]
    | some sc =>
      have h6 := (h4 sc hsc).2
      simp only [hsc]
      rw [if_neg (by push_neg; exact h6), if_neg (by simp [hreq]),
        if_neg (by simp [hreq]), if_neg (by simp [hreq])]
  · have hv : (ws s).sidecar ≠ none := fun h => hreq (h1 h)
    obtain ⟨sc, hsc⟩ := Option.ne_none_iff_exists'.mp hv
    have hr : (ws s).hasResult = true := by
      cases hhr : (ws s).hasResult
      · exact absurd (h2 hhr) hreq
      · rfl
    have hcc : (ws s).hasCache = true := by
      cases hhc : (ws s).hasCache
      · exact absurd (h3 hhc) hreq
      · rfl
    have htok : vtok s = sc.token := by
      by_cases ht : vtok s = sc.token
      · exact ht
      · exact absurd ((h4 sc hsc).1 ht) hreq
    have h6 := (h4 sc hsc).2
    simp only [scanStep, hsc]
    rw [if_neg (by push_neg; exact h6), if_neg (by simp [htok]),
      if_neg (by simp [hcc]), if_neg (by simp [hr])]

theorem scanStale_mono (L : List String) (st : ScanState V T U) (x : String)
    (hx : x ∈ st.stale) :
    x ∈ (scanStale ws vtok cfgKeys config requested L st).stale := by
  induction L generalizing st with
  | nil => exact hx
  | cons y rest ih =>
    exact ih _ (scanStep_stale_super ws vtok cfgKeys config requested y x st hx)

theorem scanStale_stale_sub (L : List String) (st : ScanState V T U)
    (x : String)
    (hx : x ∈ (scanStale ws vtok cfgKeys config requested L st).stale) :
    x ∈ st.stale ∨ x ∈ L := by
  induction L generalizing st with
  | nil => exact Or.inl hx
  | cons y rest ih =>
    rcases ih _ hx with h | h
    · rcases scanStep_stale_sub ws vtok cfgKeys config requested y x st h with h' | h'
      · exact Or.inl h'
      · exact Or.inr (h' ▸ List.mem_cons_self y rest)
    · exact Or.inr (List.mem_cons_of_mem _ h)

theorem scanStale_mark (L : List String) (st : ScanState V T U) (s : String)
    (hs : s ∈ L)
    (hmark : ∀ st' : ScanState V T U,
      s ∈ (scanStep ws vtok cfgKeys config requested s st').stale) :
    s ∈ (scanStale ws vtok cfgKeys config requested L st).stale := by
  induction L generalizing st with
  | nil => cases hs
  | cons y rest ih =>
    by_cases hys : y = s
    · subst hys
      exact scanStale_mono ws vtok cfgKeys config requested rest _ y (hmark st)
    · have hs' : s ∈ rest := by
        rcases List.mem_cons.mp hs with h | h
        · exact absurd h.symm hys
        · exact h
      exact ih _ hs'

theorem scanStale_no_new (L : List String) (st : ScanState V T U) (x : String)
    (hx : x ∉ st.stale)
    (hpass : x ∈ L →
      ScanPasses (ws x) (vtok x) (cfgKeys x) config (x ∈ requested)) :
    x ∉ (scanStale ws vtok cfgKeys config requested L st).stale := by
  induction L generalizing st with
  | nil => exact hx
  | cons y rest ih =>
    by_cases hyx : y = x
    · subst hyx
      have hst' := scanStep_no_mark ws vtok cfgKeys config requested y st
        (hpass (List.mem_cons_self y rest))
      refine ih _ ?_ (fun h => hpass (List.mem_cons_of_mem _ h))
      rw [hst']
      exact hx
    · refine ih _ ?_ (fun h => hpass (List.mem_cons_of_mem _ h))
      intro hmem
      rcases scanStep_stale_sub ws vtok cfgKeys config requested y x st hmem with h | h
      · exact hx h
      · exact hyx h.symm

theorem scanStep_exp_at (y s : String) (st : ScanState V T U) :
    (scanStep ws vtok cfgKeys config requested y st).exp s =
      (match (ws y).sidecar with
        | some sc => if y = s then sc.expected else st.exp s
        | none => st.exp s) := by
  rw [scanStep_exp]
  cases hy : (ws y).sidecar with
  | none => rfl
  | some sc =>
    by_cases hys : y = s
    · subst hys; simp [Function.update_same]
    · simp [Function.update_noteq (Ne.symm hys), hys]

theorem scanStep_cur_at (y s : String) (st : ScanState V T U) :
    (scanStep ws vtok cfgKeys config requested y st).cur s =
      (match (ws y).sidecar with
        | some sc => if y = s then some sc.uuid else st.cur s
        | none => st.cur s) := by
  rw [scanStep_cur]
  cases hy : (ws y).sidecar with
  | none => rfl
  | some sc =>
    by_cases hys : y = s
    · subst hys; simp [Function.update_same]
    · simp [Function.update_noteq (Ne.symm hys), hys]

theorem scanStale_exp_stable (L : List String) (st : ScanState V T U)
    (s : String) (hs : (ws s).sidecar = none ∨ s ∉ L) :
    (scanStale ws vtok cfgKeys config requested L st).exp s = st.exp s := by
  induction L generalizing st with
  | nil => rfl
  | cons y rest ih =>
    have hstep : (scanStep ws vtok cfgKeys config requested y st).exp s = st.exp s := by
      rw [scanStep_exp_at]
      cases hy : (ws y).sidecar with
      | none => rfl
      | some sc =>
        by_cases hys : y = s
        · subst hys
          rcases hs with h | h
          · rw [hy] at h; cases h
          · exact absurd (List.mem_cons_self y rest) h
        · simp [hys]
    have hs' : (ws s).sidecar = none ∨ s ∉ rest := by
      rcases hs with h | h
      · exact Or.inl h
      · exact Or.inr (fun hmem => h (List.mem_cons_of_mem _ hmem))
    simp only [scanStale]
    rw [ih _ hs', hstep]

theorem scanStale_cur_stable (L : List String) (st : ScanState V T U)
    (s : String) (hs : (ws s).sidecar = none ∨ s ∉ L) :
    (scanStale ws vtok cfgKeys config requested L st).cur s = st.cur s := by
  induction L generalizing st with
  | nil => rfl
  | cons y rest ih =>
    have hstep : (scanStep ws vtok cfgKeys config requested y st).cur s = st.cur s := by
      rw [scanStep_cur_at]
      cases hy : (ws y).sidecar with
      | none => rfl
      | some sc =>
        by_cases hys : y = s
        · subst hys
          rcases hs with h | h
          · rw [hy] at h; cases h
          · exact absurd (List.mem_cons_self y rest) h
        · simp [hys]
    have hs' : (ws s).sidecar = none ∨ s ∉ rest := by
      rcases hs with h | h
      · exact Or.inl h
      · exact Or.inr (fun hmem => h (List.mem_cons_of_mem _ hmem))
    simp only [scanStale]
    rw [ih _ hs', hstep]

theorem scanStale_exp_valid (L : List String) (st : ScanState V T U)
    (s : String) (sc : Sidecar V T U) (hs : s ∈ L)
    (hsc : (ws s).sidecar = some sc) :
    (scanStale ws vtok cfgKeys config requested L st).exp s = sc.expected := by
  induction L generalizing st with
  | nil => cases hs
  | cons y rest ih =>
    by_cases hsrest : s ∈ rest
    · exact ih _ hsrest
    · have hys : y = s := by
        rcases List.mem_cons.mp hs with h | h
        · exact h.symm
        · exact absurd h hsrest
      simp only [scanStale]
      rw [scanStale_exp_stable ws vtok cfgKeys config requested rest _ s
        (Or.inr hsrest), scanStep_exp_at, hys]
      simp [hsc]

theorem scanStale_cur_valid (L : List String) (st : ScanState V T U)
    (s : String) (sc : Sidecar V T U) (hs : s ∈ L)
    (hsc : (ws s).sidecar = some sc) :
    (scanStale ws vtok cfgKeys config requested L st).cur s = some sc.uuid := by
  induction L generalizing st with
  | nil => cases hs
  | cons y rest ih =>
    by_cases hsrest : s ∈ rest
    · exact ih _ hsrest
    · have hys : y = s := by
        rcases List.mem_cons.mp hs with h | h
        · exact h.symm
        · exact absurd h hsrest
      simp only [scanStale]
      rw [scanStale_cur_stable ws vtok cfgKeys config requested rest _ s
        (Or.inr hsrest), scanStep_cur_at, hys]
      simp [hsc]

theorem scanStep_noresult_mark (s : String) (st : ScanState V T U)
    (hr : (ws s).hasResult = false) (hreq : s ∉ requested) :
    s ∈ (scanStep ws vtok cfgKeys config requested s st).stale := by
  simp only [scanStep]
  cases hsc : (ws s).sidecar <;>
    simp only [hsc, apply_ite ScanState.stale] <;> split_ifs <;>
    simp_all [List.mem_insert_iff]

theorem scanStep_nocache_mark (s : String) (st : ScanState V T U)
    (hc : (ws s).hasCache = false) (hreq : s ∉ requested) :
    s ∈ (scanStep ws vtok cfgKeys config requested s st).stale := by
  simp only [scanStep]
  cases hsc : (ws s).sidecar <;>
    simp only [hsc, apply_ite ScanState.stale] <;> split_ifs <;>
    simp_all [List.mem_insert_iff]

theorem scanStep_token_mark (s : String) (st : ScanState V T U)
    (sc : Sidecar V T U) (hsc : (ws s).sidecar = some sc)
    (ht : ¬ vtok s = sc.token) (hreq : s ∉ requested) :
    s ∈ (scanStep ws vtok cfgKeys config requested s st).stale := by
  simp only [scanStep, hsc]
  split_ifs <;> simp_all [List.mem_insert_iff]

/-- Converse of `scanStep_no_mark`: when some per-stage test of the first
loop fires, the loop body inserts the stage. -/
theorem scanStep_mark_of_not_passes (s : String) (st : ScanState V T U)
    (hnp : ¬ ScanPasses (ws s) (vtok s) (cfgKeys s) config (s ∈ requested)) :
    s ∈ (scanStep ws vtok cfgKeys config requested s st).stale := by
  by_cases h1 : (ws s).sidecar = none → s ∈ requested
  · by_cases h2 : (ws s).hasResult = false → s ∈ requested
    · by_cases h3 : (ws s).hasCache = false → s ∈ requested
      · have h4 : ¬ ∀ sc, (ws s).sidecar = some sc →
            ((¬ vtok s = sc.token → s ∈ requested) ∧
              ∀ k ∈ cfgKeys s, sc.cfg.lookup k = some (config k)) :=
          fun h4 => hnp ⟨h1, h2, h3, h4⟩
        push_neg at h4
        obtain ⟨sc, hsc, h4⟩ := h4
        by_cases h5 : ¬ vtok s = sc.token → s ∈ requested
        · obtain ⟨k, hk, hne⟩ := h4 h5
          exact scanStep_cfg_mark ws vtok cfgKeys config requested s st sc
            hsc ⟨k, hk, hne⟩
        · push_neg at h5
          exact scanStep_token_mark ws vtok cfgKeys config requested s st sc
            hsc h5.1 h5.2
      · push_neg at h3
        exact scanStep_nocache_mark ws vtok cfgKeys config requested s st
          h3.1 h3.2
    · push_neg at h2
      exact scanStep_noresult_mark ws vtok cfgKeys config requested s st
        h2.1 h2.2
  · push_neg at h1
    exact scanStep_invalid_mark ws vtok cfgKeys config requested s st
      h1.1 h1.2

/-- A stage of the sequence that ends the first loop unmarked passed every
per-stage test. -/
theorem scan_passes_of_not_stale (L : List String) (st : ScanState V T U)
    (s : String) (hs : s ∈ L)
    (hns : s ∉ (scanStale ws vtok cfgKeys config requested L st).stale) :
    ScanPasses (ws s) (vtok s) (cfgKeys s) config (s ∈ requested) := by
  by_contra hnp
  exact hns (scanStale_mark ws vtok cfgKeys config requested L st s hs
    (fun st' =>
      scanStep_mark_of_not_passes ws vtok cfgKeys config requested s st' hnp))

end ScanLemmas

section PropagateLemmas

variable (seqKeys : List String) (deps : String → List String)
  (exp : String → List (String × Option U)) (cur : String → Option U)

theorem checkExpected_ok_false {l : List (String × Option U)}
    (hall : ∀ pe ∈ l, pe.1 ∈ seqKeys ∧ pe.2 = cur pe.1) :
    checkExpected seqKeys cur l = .ok false := by
  induction l with
  | nil => rfl
  | cons pe rest ih =>
    obtain ⟨h1, h2⟩ := hall pe (List.mem_cons_self pe rest)
    obtain ⟨p, eu⟩ := pe
    simp only [checkExpected]
    rw [if_pos h1, if_neg (not_not_intro h2)]
    exact ih (fun x hx => hall x (List.mem_cons_of_mem _ hx))

theorem checkExpected_ok_true {l : List (String × Option U)}
    (hall : ∀ pe ∈ l, pe.1 ∈ seqKeys)
    (hex : ∃ pe ∈ l, ¬ pe.2 = cur pe.1) :
    checkExpected seqKeys cur l = .ok true := by
  induction l with
  | nil => obtain ⟨pe, hpe, -⟩ := hex; cases hpe
  | cons pe rest ih =>
    obtain ⟨p, eu⟩ := pe
    simp only [checkExpected]
    rw [if_pos (hall (p, eu) (List.mem_cons_self _ rest))]
    by_cases hne : ¬ eu = cur p
    · rw [if_pos hne]
    · rw [if_neg hne]
      push_neg at hne
      refine ih (fun x hx => hall x (List.mem_cons_of_mem _ hx)) ?_
      obtain ⟨qe, hqe, hq⟩ := hex
      rcases List.mem_cons.mp hqe with h | h
      · exfalso; apply hq; rw [h]; exact hne
      · exact ⟨qe, h, hq⟩

theorem checkExpected_false_inv {l : List (String × Option U)}
    (h : checkExpected seqKeys cur l = .ok false) :
    ∀ pe ∈ l, pe.1 ∈ seqKeys ∧ pe.2 = cur pe.1 := by
  induction l with
  | nil => intro pe hpe; cases hpe
  | cons qe rest ih =>
    obtain ⟨p, eu⟩ := qe
    simp only [checkExpected] at h
    by_cases h1 : p ∈ seqKeys
    · rw [if_pos h1] at h
      by_cases h2 : ¬ eu = cur p
      · rw [if_pos h2] at h
        simp at h
      · rw [if_neg h2] at h
        push_neg at h2
        intro pe hpe
        rcases List.mem_cons.mp hpe with hh | hh
        · subst hh; exact ⟨h1, h2⟩
        · exact ih h pe hh
    · rw [if_neg h1] at h
      simp at h

/-- Inversion of a single iteration of the second loop. -/
theorem propagate_cons {s : String} {rest : List String}
    {stale res : List String}
    (h : propagateStale seqKeys deps exp cur (s :: rest) stale = .ok res) :
    ∃ stale',
      propagateStale seqKeys deps exp cur rest stale' = .ok res ∧
      (∀ x ∈ stale, x ∈ stale') ∧
      (∀ x ∈ stale', x ∈ stale ∨ (x = s ∧
        ((∃ p ∈ deps s, p ∈ stale) ∨
          checkExpected seqKeys cur (exp s) = .ok true))) ∧
      ((∃ p ∈ deps s, p ∈ stale) → s ∈ stale') ∧
      (checkExpected seqKeys cur (exp s) = .ok true → s ∈ stale') ∧
      (s ∉ stale' → checkExpected seqKeys cur (exp s) = .ok false) := by
  simp only [propagateStale] at h
  by_cases hc1 : s ∉ stale ∧ ∃ p ∈ deps s, p ∈ stale
  · rw [if_pos hc1] at h
    refine ⟨stale.insert s, h, fun x hx => List.mem_insert_of_mem hx,
      ?_, ?_, ?_, ?_⟩
    · intro x hx
      rcases List.mem_insert_iff.mp hx with hh | hh
      · exact Or.inr ⟨hh, Or.inl hc1.2⟩
      · exact Or.inl hh
    · intro _; exact List.mem_insert_self _ _
    · intro _; exact List.mem_insert_self _ _
    · intro hns; exact absurd (List.mem_insert_self _ _) hns
  · rw [if_neg hc1] at h
    by_cases hs : s ∈ stale
    · rw [if_neg (not_not_intro hs)] at h
      exact ⟨stale, h, fun x hx => hx, fun x hx => Or.inl hx,
        fun _ => hs, fun _ => hs, fun hns => absurd hs hns⟩
    · have hpar : ¬ ∃ p ∈ deps s, p ∈ stale := fun hp => hc1 ⟨hs, hp⟩
      rw [if_pos hs] at h
      split at h
      · simp at h
      · rename_i hce
        refine ⟨stale.insert s, h, fun x hx => List.mem_insert_of_mem hx,
          ?_, ?_, ?_, ?_⟩
        · intro x hx
          rcases List.mem_insert_iff.mp hx with hh | hh
          · exact Or.inr ⟨hh, Or.inr hce⟩
          · exact Or.inl hh
        · intro hp; exact absurd hp hpar
        · intro _; exact List.mem_insert_self _ _
        · intro hns; exact absurd (List.mem_insert_self _ _) hns
      · rename_i hce
        refine ⟨stale, h, fun x hx => hx, fun x hx => Or.inl hx, ?_, ?_, ?_⟩
        · intro hp; exact absurd hp hpar
        · intro hc; rw [hce] at hc; simp at hc
        · intro _; exact hce

theorem propagate_mono (L : List String) :
    ∀ {stale res : List String},
      propagateStale seqKeys deps exp cur L stale = .ok res →
      ∀ x ∈ stale, x ∈ res := by
  induction L with
  | nil =>
    intro stale res h
    simp only [propagateStale] at h
    cases h
    exact fun x hx => hx
  | cons s rest ih =>
    intro stale res h
    obtain ⟨stale', h', hsup, -⟩ := propagate_cons seqKeys deps exp cur h
    exact fun x hx => ih h' x (hsup x hx)

theorem propagate_sub (L : List String) :
    ∀ {stale res : List String},
      propagateStale seqKeys deps exp cur L stale = .ok res →
      ∀ x ∈ res, x ∈ stale ∨ x ∈ L := by
  induction L with
  | nil =>
    intro stale res h
    simp only [propagateStale] at h
    cases h
    exact fun x hx => Or.inl hx
  | cons s rest ih =>
    intro stale res h
    obtain ⟨stale', h', -, hinv, -⟩ := propagate_cons seqKeys deps exp cur h
    intro x hx
    rcases ih h' x hx with hh | hh
    · rcases hinv x hh with h1 | ⟨h1, -⟩
      · exact Or.inl h1
      · exact Or.inr (h1 ▸ List.mem_cons_self s rest)
    · exact Or.inr (List.mem_cons_of_mem _ hh)

theorem propagate_check_mark (L : List String) :
    ∀ {stale res : List String} {t : String},
      propagateStale seqKeys deps exp cur L stale = .ok res →
      t ∈ L → checkExpected seqKeys cur (exp t) = .ok true →
      t ∈ res := by
  induction L with
  | nil => intro _ _ _ _ ht; cases ht
  | cons s rest ih =>
    intro stale res t h ht hce
    obtain ⟨stale', h', -, -, -, hcem, -⟩ := propagate_cons seqKeys deps exp cur h
    by_cases hts : t = s
    · subst hts
      exact propagate_mono seqKeys deps exp cur rest h' t (hcem hce)
    · have : t ∈ rest := by
        rcases List.mem_cons.mp ht with hh | hh
        · exact absurd hh hts
        · exact hh
      exact ih h' this hce

theorem propagate_parent_mark (L : List String) :
    ∀ {stale res : List String} {t p : String},
      L.Nodup →
      propagateStale seqKeys deps exp cur L stale = .ok res →
      t ∈ L → p ∈ deps t → p ∈ res →
      (p ∈ stale ∨ ListBefore p t L) → t ∈ res := by
  induction L with
  | nil => intro _ _ _ _ _ _ ht; cases ht
  | cons s rest ih =>
    intro stale res t p hnd h ht hp hpres hpos
    obtain ⟨stale', h', hsup, hinv, hparm, -, -⟩ :=
      propagate_cons seqKeys deps exp cur h
    by_cases hts : t = s
    · subst hts
      have hpstale : p ∈ stale := by
        rcases hpos with hh | hh
        · exact hh
        · exfalso
          obtain ⟨-, -, hlt⟩ := hh
          rw [List.indexOf_cons_self] at hlt
          omega
      exact propagate_mono seqKeys deps exp cur rest h' t (hparm ⟨p, hp, hpstale⟩)
    · have htrest : t ∈ rest := by
        rcases List.mem_cons.mp ht with hh | hh
        · exact absurd hh hts
        · exact hh
      refine ih hnd.of_cons h' htrest hp hpres ?_
      rcases hpos with hh | hh
      · exact Or.inl (hsup p hh)
      · by_cases hps : p = s
        · subst hps
          have : p ∈ stale' := by
            rcases propagate_sub seqKeys deps exp cur rest h' p hpres with h1 | h1
            · exact h1
            · exact absurd h1 (List.nodup_cons.mp hnd).1
          exact Or.inl this
        · exact Or.inr ((listBefore_of_cons hh hps).1)

theorem propagate_inv (L : List String) :
    ∀ {stale res : List String} {t : String},
      L.Nodup →
      propagateStale seqKeys deps exp cur L stale = .ok res →
      t ∈ res →
      t ∈ stale ∨ (t ∈ L ∧
        ((∃ p ∈ deps t, p ∈ res ∧ (p ∈ stale ∨ ListBefore p t L)) ∨
          checkExpected seqKeys cur (exp t) = .ok true)) := by
  induction L with
  | nil =>
    intro stale res t _ h ht
    simp only [propagateStale] at h
    cases h
    exact Or.inl ht
  | cons s rest ih =>
    intro stale res t hnd h ht
    obtain ⟨stale', h', hsup, hinv, -, -, -⟩ :=
      propagate_cons seqKeys deps exp cur h
    by_cases hts : t = s
    · subst hts
      by_cases hmem : t ∈ stale'
      · rcases hinv t hmem with h1 | ⟨-, h2⟩
        · exact Or.inl h1
        · refine Or.inr ⟨List.mem_cons_self t rest, ?_⟩
          rcases h2 with ⟨p, hp1, hp2⟩ | h3
          · exact Or.inl ⟨p, hp1,
              propagate_mono seqKeys deps exp cur rest h' p (hsup p hp2),
              Or.inl hp2⟩
          · exact Or.inr h3
      · exfalso
        rcases propagate_sub seqKeys deps exp cur rest h' t ht with h1 | h1
        · exact hmem h1
        · exact (List.nodup_cons.mp hnd).1 h1
    · rcases ih hnd.of_cons h' ht with h1 | ⟨h1, h2⟩
      · rcases hinv t h1 with hh | ⟨hh, -⟩
        · exact Or.inl hh
        · exact absurd hh hts
      · refine Or.inr ⟨List.mem_cons_of_mem _ h1, ?_⟩
        rcases h2 with ⟨p, hp1, hp2, hp3⟩ | h3
        · refine Or.inl ⟨p, hp1, hp2, ?_⟩
          rcases hp3 with hh | hh
          · rcases hinv p hh with h4 | ⟨h4, -⟩
            · exact Or.inl h4
            · subst h4
              exact Or.inr (listBefore_head (Ne.symm hts) h1)
          · exact Or.inr (listBefore_cons hh hts)
        · exact Or.inr h3

theorem propagate_not_stale_check (L : List String) :
    ∀ {stale res : List String} {t : String},
      propagateStale seqKeys deps exp cur L stale = .ok res →
      t ∈ L → t ∉ res →
      checkExpected seqKeys cur (exp t) = .ok false := by
  induction L with
  | nil => intro _ _ _ _ ht; cases ht
  | cons s rest ih =>
    intro stale res t h ht hres
    obtain ⟨stale', h', -, -, -, -, hneg⟩ :=
      propagate_cons seqKeys deps exp cur h
    by_cases hts : t = s
    · subst hts
      refine hneg (fun hmem => hres ?_)
      exact propagate_mono seqKeys deps exp cur rest h' t hmem
    · have : t ∈ rest := by
        rcases List.mem_cons.mp ht with hh | hh
        · exact absurd hh hts
        · exact hh
      exact ih h' this hres

/-- The second loop returns normally when no stage's stored expected map
raises `KeyError`. -/
theorem propagate_ok (L : List String) :
    ∀ stale : List String,
      (∀ t ∈ L, ∃ b, checkExpected seqKeys cur (exp t) = .ok b) →
      ∃ res, propagateStale seqKeys deps exp cur L stale = .ok res := by
  induction L with
  | nil => intro stale _; exact ⟨stale, rfl⟩
  | cons s rest ih =>
    intro stale hall
    have hrest : ∀ t ∈ rest, ∃ b, checkExpected seqKeys cur (exp t) = .ok b :=
      fun t ht => hall t (List.mem_cons_of_mem _ ht)
    simp only [propagateStale]
    by_cases hc1 : s ∉ stale ∧ ∃ p ∈ deps s, p ∈ stale
    · rw [if_pos hc1]
      exact ih _ hrest
    · rw [if_neg hc1]
      by_cases hs : s ∈ stale
      · rw [if_neg (not_not_intro hs)]
        exact ih _ hrest
      · rw [if_pos hs]
        obtain ⟨b, hb⟩ := hall s (List.mem_cons_self s rest)
        rw [hb]
        cases b
        · exact ih _ hrest
        · exact ih _ hrest

end PropagateLemmas

section ExecLemmas

variable (deps : String → List String) (cfgKeys : String → List String)
  (vtok : String → Option T) (config : String → V)
  (hasExec execOk : String → Bool) (fresh : Nat → U) (stale : List String)

/-- The trace accumulator only ever grows by appending; all other outputs
are independent of it. -/
theorem execPhase_factor (L : List String) :
    ∀ (n : Nat) (cur : String → Option U) (ws : String → StageDisk V T U)
      (tr : List Event),
      execPhase deps cfgKeys vtok config hasExec execOk fresh stale L n cur ws tr =
        { ws := (execPhase deps cfgKeys vtok config hasExec execOk fresh stale
            L n cur ws []).ws
          cur := (execPhase deps cfgKeys vtok config hasExec execOk fresh stale
            L n cur ws []).cur
          nextId := (execPhase deps cfgKeys vtok config hasExec execOk fresh stale
            L n cur ws []).nextId
          trace := tr ++ (execPhase deps cfgKeys vtok config hasExec execOk fresh
            stale L n cur ws []).trace
          err := (execPhase deps cfgKeys vtok config hasExec execOk fresh stale
            L n cur ws []).err } := by
  induction L with
  | nil => intro n cur ws tr; simp [execPhase]
  | cons s rest ih =>
    intro n cur ws tr
    simp only [execPhase]
    by_cases h1 : s ∈ stale
    · rw [if_pos h1, if_pos h1]
      by_cases h2 : hasExec s
      · rw [if_neg (not_not_intro h2), if_neg (not_not_intro h2)]
        by_cases h3 : execOk s
        · rw [if_neg (not_not_intro h3), if_neg (not_not_intro h3)]
          conv_lhs => rw [ih]
          conv_rhs => rw [ih]
          simp
        · rw [if_pos (by simpa using h3), if_pos (by simpa using h3)]
          simp
      · rw [if_pos (by simpa using h2), if_pos (by simpa using h2)]
        simp
    · rw [if_neg h1, if_neg h1]
      conv_lhs => rw [ih]

theorem execPhase_skip_not_stale (L : List String) :
    ∀ (n : Nat) (cur : String → Option U) (ws : String → StageDisk V T U)
      (tr : List Event) (t : String), t ∉ stale →
      (execPhase deps cfgKeys vtok config hasExec execOk fresh stale
        L n cur ws tr).ws t = ws t ∧
      (execPhase deps cfgKeys vtok config hasExec execOk fresh stale
        L n cur ws tr).cur t = cur t := by
  induction L with
  | nil => intro n cur ws tr t _; exact ⟨rfl, rfl⟩
  | cons s rest ih =>
    intro n cur ws tr t ht
    simp only [execPhase]
    by_cases h1 : s ∈ stale
    · have hts : t ≠ s := fun e => ht (e ▸ h1)
      rw [if_pos h1]
      by_cases h2 : hasExec s
      · rw [if_neg (not_not_intro h2)]
        by_cases h3 : execOk s
        · rw [if_neg (not_not_intro h3)]
          obtain ⟨hw, hc⟩ := ih (n + 1) _ _ _ t ht
          refine ⟨?_, ?_⟩
          · rw [hw]
            simp [Function.update_noteq hts]
          · rw [hc]
            simp [Function.update_noteq hts]
        · rw [if_pos (by simpa using h3)]
          exact ⟨by simp [Function.update_noteq hts], rfl⟩
      · rw [if_pos (by simpa using h2)]
        exact ⟨rfl, rfl⟩
    · rw [if_neg h1]
      exact ih n cur ws tr t ht

theorem execPhase_skip_not_mem (L : List String) :
    ∀ (n : Nat) (cur : String → Option U) (ws : String → StageDisk V T U)
      (tr : List Event) (t : String), t ∉ L →
      (execPhase deps cfgKeys vtok config hasExec execOk fresh stale
        L n cur ws tr).ws t = ws t ∧
      (execPhase deps cfgKeys vtok config hasExec execOk fresh stale
        L n cur ws tr).cur t = cur t := by
  induction L with
  | nil => intro n cur ws tr t _; exact ⟨rfl, rfl⟩
  | cons s rest ih =>
    intro n cur ws tr t ht
    have hts : t ≠ s := fun e => ht (e ▸ List.mem_cons_self s rest)
    have htrest : t ∉ rest := fun h => ht (List.mem_cons_of_mem _ h)
    simp only [execPhase]
    by_cases h1 : s ∈ stale
    · rw [if_pos h1]
      by_cases h2 : hasExec s
      · rw [if_neg (not_not_intro h2)]
        by_cases h3 : execOk s
        · rw [if_neg (not_not_intro h3)]
          obtain ⟨hw, hc⟩ := ih (n + 1) _ _ _ t htrest
          refine ⟨?_, ?_⟩
          · rw [hw]
            simp [Function.update_noteq hts]
          · rw [hc]
            simp [Function.update_noteq hts]
        · rw [if_pos (by simpa using h3)]
          exact ⟨by simp [Function.update_noteq hts], rfl⟩
      · rw [if_pos (by simpa using h2)]
        exact ⟨rfl, rfl⟩
    · rw [if_neg h1]
      exact ih n cur ws tr t htrest

theorem topo_suffix {s : String} {rest : List String}
    (hnd : (s :: rest).Nodup)
    (h : ∀ x ∈ s :: rest, ∀ p ∈ deps x,
      p ∉ s :: rest ∨ ListBefore p x (s :: rest)) :
    ∀ x ∈ rest, ∀ p ∈ deps x, p ∉ rest ∨ ListBefore p x rest := by
  intro x hx p hp
  rcases h x (List.mem_cons_of_mem _ hx) p hp with hh | hh
  · exact Or.inl (fun h' => hh (List.mem_cons_of_mem _ h'))
  · by_cases hps : p = s
    · subst hps
      exact Or.inl (List.nodup_cons.mp hnd).1
    · exact Or.inr (listBefore_of_cons hh hps).1

/-- A stale stage executed in a completed run ends up with a freshly
written sidecar recording its uuid, the current uuids of its declared
upstreams, its verification token and its filtered configuration. -/
theorem execPhase_writes (L : List String) :
    ∀ (n : Nat) (cur : String → Option U) (ws : String → StageDisk V T U)
      (tr : List Event) (t : String),
      L.Nodup →
      (∀ x ∈ L, ∀ p ∈ deps x, p ∉ L ∨ ListBefore p x L) →
      (execPhase deps cfgKeys vtok config hasExec execOk fresh stale
        L n cur ws tr).err = none →
      t ∈ L → t ∈ stale →
      ∃ u, (execPhase deps cfgKeys vtok config hasExec execOk fresh stale
          L n cur ws tr).ws t =
        ⟨some ⟨u, (deps t).map (fun p => (p,
            (execPhase deps cfgKeys vtok config hasExec execOk fresh stale
              L n cur ws tr).cur p)),
          vtok t, filterConfig config (cfgKeys t)⟩, true, true⟩ ∧
        (execPhase deps cfgKeys vtok config hasExec execOk fresh stale
          L n cur ws tr).cur t = some u := by
  induction L with
  | nil => intro n cur ws tr t _ _ _ ht _; cases ht
  | cons s rest ih =>
    intro n cur ws tr t hnd htopo herr ht hstale
    simp only [execPhase] at herr ⊢
    by_cases h1 : s ∈ stale
    · rw [if_pos h1] at herr ⊢
      by_cases h2 : hasExec s
      · rw [if_neg (not_not_intro h2)] at herr ⊢
        by_cases h3 : execOk s
        · rw [if_neg (not_not_intro h3)] at herr ⊢
          by_cases hts : t = s
          · subst hts
            have htrest : t ∉ rest := (List.nodup_cons.mp hnd).1
            obtain ⟨hw, hc⟩ := execPhase_skip_not_mem deps cfgKeys vtok config
              hasExec execOk fresh stale rest (n + 1) _ _ _ t htrest
            refine ⟨fresh n, ?_, ?_⟩
            · rw [hw]
              simp only [Function.update_same, StageDisk.mk.injEq,
                Option.some.injEq, Sidecar.mk.injEq, true_and, and_true]
              refine List.map_congr_left ?_
              intro p hp
              have hpt : p ∉ t :: rest := by
                rcases htopo t (List.mem_cons_self t rest) p hp with hh | hh
                · exact hh
                · exfalso
                  obtain ⟨-, -, hlt⟩ := hh
                  rw [List.indexOf_cons_self] at hlt
                  omega
              have hprest : p ∉ rest := fun h => hpt (List.mem_cons_of_mem _ h)
              rw [(execPhase_skip_not_mem deps cfgKeys vtok config hasExec
                execOk fresh stale rest (n + 1) _ _ _ p hprest).2]
            · rw [hc]
              simp [Function.update_same]
          · have htrest : t ∈ rest := by
              rcases List.mem_cons.mp ht with hh | hh
              · exact absurd hh hts
              · exact hh
            exact ih (n + 1) _ _ _ t hnd.of_cons (topo_suffix deps hnd htopo)
              herr htrest hstale
        · rw [if_pos (by simpa using h3)] at herr
          simp at herr
      · rw [if_pos (by simpa using h2)] at herr
        simp at herr
    · rw [if_neg h1] at herr ⊢
      have hts : t ≠ s := fun e => h1 (e ▸ hstale)
      have htrest : t ∈ rest := by
        rcases List.mem_cons.mp ht with hh | hh
        · exact absurd hh hts
        · exact hh
      exact ih n cur ws tr t hnd.of_cons (topo_suffix deps hnd htopo)
        herr htrest hstale

theorem listBefore_append_pre {α : Type} [DecidableEq α] {a b : α}
    {pre l : List α} (ha : a ∉ pre) (hb : b ∉ pre)
    (h : ListBefore a b l) : ListBefore a b (pre ++ l) := by
  obtain ⟨h1, h2, h3⟩ := h
  refine ⟨List.mem_append_right _ h1, List.mem_append_right _ h2, ?_⟩
  rw [List.indexOf_append_of_not_mem ha, List.indexOf_append_of_not_mem hb]
  omega

theorem execPhase_trace_stages (L : List String) :
    ∀ (n : Nat) (cur : String → Option U) (ws : String → StageDisk V T U),
      ∀ ev ∈ (execPhase deps cfgKeys vtok config hasExec execOk fresh stale
        L n cur ws []).trace, eventStage ev ∈ L ∧ eventStage ev ∈ stale := by
  induction L with
  | nil => intro n cur ws ev hev; cases hev
  | cons s rest ih =>
    intro n cur ws ev hev
    simp only [execPhase] at hev
    by_cases h1 : s ∈ stale
    · rw [if_pos h1] at hev
      by_cases h2 : hasExec s
      · rw [if_neg (not_not_intro h2)] at hev
        by_cases h3 : execOk s
        · rw [if_neg (not_not_intro h3)] at hev
          rw [execPhase_factor] at hev
          simp only [List.nil_append, List.singleton_append,
            List.cons_append, List.mem_cons] at hev
          rcases hev with h | h | h | hh
          · subst h; exact ⟨List.mem_cons_self s rest, h1⟩
          · subst h; exact ⟨List.mem_cons_self s rest, h1⟩
          · subst h; exact ⟨List.mem_cons_self s rest, h1⟩
          · obtain ⟨hL, hst⟩ := ih _ _ _ ev hh
            exact ⟨List.mem_cons_of_mem _ hL, hst⟩
        · rw [if_pos (by simpa using h3)] at hev
          simp only [List.nil_append, List.mem_singleton] at hev
          subst hev
          exact ⟨List.mem_cons_self s rest, h1⟩
      · rw [if_pos (by simpa using h2)] at hev
        cases hev
    · rw [if_neg h1] at hev
      obtain ⟨hL, hst⟩ := ih _ _ _ ev hev
      exact ⟨List.mem_cons_of_mem _ hL, hst⟩

theorem execPhase_result_before_sidecar (L : List String) (hnd : L.Nodup) :
    ∀ (n : Nat) (cur : String → Option U) (ws : String → StageDisk V T U)
      (t : String),
      Event.wroteSidecar t ∈ (execPhase deps cfgKeys vtok config hasExec
        execOk fresh stale L n cur ws []).trace →
      ListBefore (Event.wroteResult t) (Event.wroteSidecar t)
        (execPhase deps cfgKeys vtok config hasExec execOk fresh stale
          L n cur ws []).trace := by
  induction L with
  | nil => intro n cur ws t ht; cases ht
  | cons s rest ih =>
    intro n cur ws t ht
    simp only [execPhase] at ht ⊢
    by_cases h1 : s ∈ stale
    · rw [if_pos h1] at ht ⊢
      by_cases h2 : hasExec s
      · rw [if_neg (not_not_intro h2)] at ht ⊢
        by_cases h3 : execOk s
        · rw [if_neg (not_not_intro h3)] at ht ⊢
          rw [execPhase_factor] at ht ⊢
          simp only [List.nil_append, List.singleton_append,
            List.cons_append] at ht ⊢
          by_cases hts : t = s
          · subst hts
            have e1 : ∀ X : List Event,
                (Event.clearedCache t :: Event.wroteResult t ::
                  Event.wroteSidecar t :: X).indexOf (Event.wroteResult t) = 1 := by
              intro X
              rw [List.indexOf_cons_ne _ (by simp), List.indexOf_cons_self]
            have e2 : ∀ X : List Event,
                (Event.clearedCache t :: Event.wroteResult t ::
                  Event.wroteSidecar t :: X).indexOf (Event.wroteSidecar t) = 2 := by
              intro X
              rw [List.indexOf_cons_ne _ (by simp),
                List.indexOf_cons_ne _ (by simp), List.indexOf_cons_self]
            refine ⟨by simp, by simp, ?_⟩
            rw [e1, e2]
            omega
          · simp only [List.mem_cons] at ht
            rcases ht with h | h | h | hT
            · simp at h
            · simp at h
            · simp at h
              exact absurd h hts
            · show ListBefore (Event.wroteResult t) (Event.wroteSidecar t)
                ([Event.clearedCache s, Event.wroteResult s,
                  Event.wroteSidecar s] ++ _)
              refine listBefore_append_pre ?_ ?_ (ih hnd.of_cons _ _ _ t hT)
              · simp [hts]
              · simp [hts]
        · rw [if_pos (by simpa using h3)] at ht
          simp only [List.nil_append, List.mem_singleton] at ht
          cases ht
      · rw [if_pos (by simpa using h2)] at ht
        cases ht
    · rw [if_neg h1] at ht ⊢
      exact ih hnd.of_cons _ _ _ t ht

/-- Failure semantics of the execution loop: when `execute` raises at stage
`s`, the run stops there; `s` keeps its old sidecar and result (only its
cache was cleared), stages after `s` are untouched, and stale stages before
`s` completed with their artifacts in place. -/
theorem execPhase_failure (L : List String) (hnd : L.Nodup) :
    ∀ (n : Nat) (cur : String → Option U) (ws : String → StageDisk V T U)
      (s : String),
      (execPhase deps cfgKeys vtok config hasExec execOk fresh stale
        L n cur ws []).err = some (.stageFailed s) →
      s ∈ L ∧ s ∈ stale ∧ hasExec s = true ∧ execOk s = false ∧
      (execPhase deps cfgKeys vtok config hasExec execOk fresh stale
        L n cur ws []).ws s = ⟨(ws s).sidecar, (ws s).hasResult, true⟩ ∧
      Event.wroteResult s ∉ (execPhase deps cfgKeys vtok config hasExec execOk
        fresh stale L n cur ws []).trace ∧
      Event.wroteSidecar s ∉ (execPhase deps cfgKeys vtok config hasExec execOk
        fresh stale L n cur ws []).trace ∧
      (∀ t, ListBefore s t L →
        (execPhase deps cfgKeys vtok config hasExec execOk fresh stale
          L n cur ws []).ws t = ws t ∧
        ∀ ev ∈ (execPhase deps cfgKeys vtok config hasExec execOk fresh stale
          L n cur ws []).trace, eventStage ev ≠ t) ∧
      (∀ t, ListBefore t s L → t ∈ stale →
        ∃ sc, (execPhase deps cfgKeys vtok config hasExec execOk fresh stale
            L n cur ws []).ws t = StageDisk.mk (some sc) true true ∧
          Event.wroteSidecar t ∈ (execPhase deps cfgKeys vtok config hasExec
            execOk fresh stale L n cur ws []).trace) := by
  induction L with
  | nil => intro n cur ws s herr; cases herr
  | cons y rest ih =>
    intro n cur ws s herr
    simp only [execPhase] at herr ⊢
    by_cases h1 : y ∈ stale
    · rw [if_pos h1] at herr ⊢
      by_cases h2 : hasExec y
      · rw [if_neg (not_not_intro h2)] at herr ⊢
        by_cases h3 : execOk y
        · rw [if_neg (not_not_intro h3)] at herr ⊢
          rw [execPhase_factor] at herr ⊢
          simp only [List.nil_append, List.singleton_append,
            List.cons_append] at herr ⊢
          obtain ⟨hsL, hsStale, hsExec, hsOk, hsWs, hsR, hsW, hafter, hbefore⟩ :=
            ih hnd.of_cons (n + 1) _ _ s herr
          have hys : y ≠ s := fun e => (List.nodup_cons.mp hnd).1 (e ▸ hsL)
          refine ⟨List.mem_cons_of_mem _ hsL, hsStale, hsExec, hsOk, ?_, ?_, ?_,
            ?_, ?_⟩
          · rw [hsWs]
            simp [Function.update_noteq (Ne.symm hys)]
          · simp only [List.mem_cons]
            push_neg
            exact ⟨by simp, by simp [hys.symm], by simp, hsR⟩
          · simp only [List.mem_cons]
            push_neg
            exact ⟨by simp, by simp, by simp [hys.symm], hsW⟩
          · intro t hbt
            have hty : t ≠ y := by
              intro e
              obtain ⟨-, -, hlt⟩ := hbt
              rw [e, List.indexOf_cons_self] at hlt
              omega
            obtain ⟨hw, hevs⟩ := hafter t (listBefore_of_cons hbt hys.symm).1
            refine ⟨?_, ?_⟩
            · rw [hw]
              simp [Function.update_noteq hty]
            · intro ev hev
              simp only [List.mem_cons] at hev
              rcases hev with h | h | h | h
              · rw [h]; exact fun e => hty e.symm
              · rw [h]; exact fun e => hty e.symm
              · rw [h]; exact fun e => hty e.symm
              · exact hevs ev h
          · intro t hts htStale
            by_cases hty : t = y
            · subst hty
              have htrest : t ∉ rest := (List.nodup_cons.mp hnd).1
              refine ⟨Sidecar.mk (fresh n) ((deps t).map (fun p =>
                  (p, Function.update cur t (some (fresh n)) p))) (vtok t)
                  (filterConfig config (cfgKeys t)), ?_, by simp⟩
              rw [(execPhase_skip_not_mem deps cfgKeys vtok config hasExec
                execOk fresh stale rest (n + 1) _ _ _ t htrest).1]
              simp [Function.update_same]
            · obtain ⟨sc, hw, htr⟩ :=
                hbefore t (listBefore_of_cons hts hty).1 htStale
              exact ⟨sc, hw, by simp only [List.mem_cons]; tauto⟩
        · rw [if_pos (by simpa using h3)] at herr ⊢
          simp only [List.nil_append, Option.some.injEq,
            RunErr.stageFailed.injEq] at herr ⊢
          subst herr
          refine ⟨List.mem_cons_self y rest, h1, h2, by simpa using h3, ?_,
            by simp, by simp, ?_, ?_⟩
          · simp [Function.update_same]
          · intro t hbt
            have hty : t ≠ y := fun e => listBefore_ne hbt e.symm
            refine ⟨by simp [Function.update_noteq hty], ?_⟩
            intro ev hev
            simp only [List.mem_singleton] at hev
            rw [hev]
            exact fun e => hty e.symm
          · intro t hts _
            exfalso
            obtain ⟨-, -, hlt⟩ := hts
            rw [List.indexOf_cons_self] at hlt
            omega
      · rw [if_pos (by simpa using h2)] at herr
        simp at herr
    · rw [if_neg h1] at herr ⊢
      obtain ⟨hsL, hsStale, hsExec, hsOk, hsWs, hsR, hsW, hafter, hbefore⟩ :=
        ih hnd.of_cons n cur ws s herr
      have hys : y ≠ s := fun e => h1 (e ▸ hsStale)
      refine ⟨List.mem_cons_of_mem _ hsL, hsStale, hsExec, hsOk, hsWs, hsR, hsW,
        ?_, ?_⟩
      · intro t hbt
        have hty : t ≠ y := by
          intro e
          obtain ⟨-, -, hlt⟩ := hbt
          rw [e, List.indexOf_cons_self] at hlt
          omega
        exact hafter t (listBefore_of_cons hbt hys.symm).1
      · intro t hts htStale
        by_cases hty : t = y
        · subst hty
          exact absurd htStale h1
        · exact hbefore t (listBefore_of_cons hts hty).1 htStale

end ExecLemmas

/-! ### Claim theorems -/

theorem one_lt_length_of_two_mem {α : Type} {l : List α} {a b : α}
    (ha : a ∈ l) (hb : b ∈ l) (hab : a ≠ b) : 1 < l.length := by
  match l with
  | [] => cases ha
  | [x] =>
    rw [List.mem_singleton] at ha hb
    exact absurd (ha.trans hb.symm) hab
  | x :: y :: rest => simp [List.length_cons]

/-- C1: the claim states that `_flatten_config` maps every leaf of a legal
nested config to its dotted path. In the code, line 37 enqueues
`[path] + [key]` instead of `path + [key]`, so as soon as a leaf sits at
depth two or more the path contains a list and `".".join` raises
`TypeError`: the legal config `{"a": {"b": 1}}` crashes instead of
producing `{"a.b": 1}`. Top-level scalars still flatten correctly. -/
theorem c1_flatten_config_code_bug :
    flattenConfig [("a", NestedVal.dict [("b", NestedVal.scalar (1 : Int))])] =
      .error .typeJoin ∧
    flattenConfig [("x", NestedVal.scalar (2 : Int))] = .ok [("x", 2)] := by
  constructor
  · simp [flattenConfig, flattenGo, processEntries, joinPath, pathStrings,
      setKey]
  · simp [flattenConfig, flattenGo, processEntries, joinPath, pathStrings,
      setKey]
    rfl

/-- C3: the claim states that a required key that is absent from the user
config but declared with a non-null default is filled in and causes no
failure. In the code the missing-key check of lines 170-179 runs *before*
defaults are applied and inspects only the user config, so the run fails
with `Missing config keys` even though the key has the default `"x"`; the
default-filling loop of lines 207-210 iterates over keys of
`default_values`, which are exactly the config keys, and can therefore
never add anything. The second conjunct shows the same declaration passes
once the key is present. -/
theorem c3_missing_default_code_bug :
    checkConfig [("s", [("k", some "x")])] ([] : List String) =
      .error .missingKeys ∧
    checkConfig [("s", [("k", some "x")])] ["k"] = .ok ["k"] := by
  constructor
  · rfl
  · rfl

/-- C7 counterexample: two stages declare key `k` with conflicting non-null
defaults `"x"` and `"y"` while `k` is absent from the user config; the
claim says the engine fails with `DefaultValueConflict`, but the code
raises `Missing config keys` first. -/
theorem c7_conflict_counterexample :
    checkConfig [("s1", [("k", some "x")]), ("s2", [("k", some "y")])]
      ([] : List String) = .error .missingKeys ∧
    (Except.error CfgErr.missingKeys : Except CfgErr (List String)) ≠
      .error .defaultConflict := by
  constructor
  · rfl
  · simp

/-- C9: the claim states that finalizing a known tracker always emits one
line and drops it, even when `current` is still 0. In the code,
`ProgressServer.print` computes `speed = current / runtime = 0.0` for such
a tracker and then evaluates `1.0 / speed`, raising `ZeroDivisionError`
and crashing the server; so finalize after zero updates fails instead of
printing. Finalize of an unknown uuid is indeed a silent no-op (second
conjunct). -/
theorem c9_finalize_zero_count_code_bug :
    serverFinalize [("u", initTracker none none none 0)] "u" 1 = .error () ∧
    serverFinalize [] "u" 1 = .ok ([], []) := by
  constructor
  · simp [serverFinalize, List.lookup, setTracker, serverPrint, printTracker,
      initTracker]
    norm_num
    rfl
  · rfl

/-- C10: the config context handed to `verify`/`execute` is filtered to the
stage's declared keys: `config(key)` returns the flat-config value exactly
on declared keys and raises a `PipelineException` on every other key, even
when the key exists in the engine's full flat configuration. -/
theorem c10_config_context (config : String → V) (keys : List String)
    (key : String) :
    (key ∉ keys → configCtxGet (filterConfig config keys) key = .error ()) ∧
    (key ∈ keys → configCtxGet (filterConfig config keys) key =
      .ok (config key)) := by
  constructor
  · intro hk
    simp only [configCtxGet, lookup_filterConfig_not_mem config keys key hk]
  · intro hk
    simp only [configCtxGet, lookup_filterConfig config keys key hk]

theorem c10_config_context_witness :
    configCtxGet (filterConfig (fun _ => (7 : Int)) ["a"]) "b" = .error () ∧
    configCtxGet (filterConfig (fun _ => (7 : Int)) ["a"]) "a" = .ok 7 :=
  ⟨(c10_config_context (fun _ => (7 : Int)) ["a"] "b").1 (by decide),
    (c10_config_context (fun _ => (7 : Int)) ["a"] "a").2 (by decide)⟩

/-- C6: `_flatten_dag` over a dependency dict with key set `keys` (closed
under membership): it returns a linear order in which every declared
upstream precedes its dependent if and only if the dependency relation is
acyclic on the keys, and on a cycle it raises `CircularDependency`, in
which case the pipeline run aborts before any stage execution. -/
theorem c6_flatten_dag [DecidableEq V] [DecidableEq T] [DecidableEq U]
    (keys : List String) (deps : String → List String)
    (hnd : keys.Nodup) (hclosed : ∀ s ∈ keys, ∀ d ∈ deps s, d ∈ keys) :
    (∀ seq, flattenDag keys deps = .ok seq →
      seq.Perm keys ∧ TopoSorted deps seq) ∧
    ((∃ seq, flattenDag keys deps = .ok seq) ↔ ¬ CyclicOn keys deps) ∧
    (CyclicOn keys deps → flattenDag keys deps = .error () ∧
      ∀ (reqs : String → List (String × Option V)) (vtok : String → Option T)
        (userKeys : List String) (config : String → V)
        (requested : List String) (hasExec execOk : String → Bool)
        (fresh : Nat → U) (ws0 : String → StageDisk V T U) res,
        checkConfig (keys.map (fun s => (s, reqs s))) userKeys = .ok res →
        (runPipeline keys reqs deps vtok userKeys config requested hasExec
          execOk fresh ws0).trace = [] ∧
        (runPipeline keys reqs deps vtok userKeys config requested hasExec
          execOk fresh ws0).err = some .circularDependency) := by
  have hsound := flattenDag_sound keys deps
  refine ⟨fun seq h => hsound seq hnd h, ⟨?_, ?_⟩, ?_⟩
  · rintro ⟨seq, h⟩ ⟨s, hs, hp⟩
    obtain ⟨hperm, hts⟩ := hsound seq hnd h
    exact listBefore_irrefl s seq
      (depPath_listBefore deps seq hts s s hp (hperm.mem_iff.mpr hs))
  · exact fun hnc => flattenDag_complete keys deps hclosed hnc
  · intro hc
    have herr := flattenDag_cyclic_error keys deps hnd hc
    refine ⟨herr, ?_⟩
    intro reqs vtok userKeys config requested hasExec execOk fresh ws0 res hcc
    refine ⟨?_, ?_⟩ <;> simp [runPipeline, hcc, herr]

theorem c6_flatten_dag_witness :
    (∀ seq, flattenDag ["a", "b"]
        (fun s => if s = "a" then ["b"] else if s = "b" then ["a"] else []) =
        .ok seq →
      seq.Perm ["a", "b"] ∧ TopoSorted
        (fun s => if s = "a" then ["b"] else if s = "b" then ["a"] else [])
        seq) ∧
    ((∃ seq, flattenDag ["a", "b"]
        (fun s => if s = "a" then ["b"] else if s = "b" then ["a"] else []) =
        .ok seq) ↔
      ¬ CyclicOn ["a", "b"]
        (fun s => if s = "a" then ["b"] else if s = "b" then ["a"] else [])) ∧
    (CyclicOn ["a", "b"]
        (fun s => if s = "a" then ["b"] else if s = "b" then ["a"] else []) →
      flattenDag ["a", "b"]
        (fun s => if s = "a" then ["b"] else if s = "b" then ["a"] else []) =
        .error () ∧
      ∀ (reqs : String → List (String × Option Int))
        (vtok : String → Option Int) (userKeys : List String)
        (config : String → Int) (requested : List String)
        (hasExec execOk : String → Bool) (fresh : Nat → Int)
        (ws0 : String → StageDisk Int Int Int) res,
        checkConfig (["a", "b"].map (fun s => (s, reqs s))) userKeys =
          .ok res →
        (runPipeline ["a", "b"] reqs
          (fun s => if s = "a" then ["b"] else if s = "b" then ["a"] else [])
          vtok userKeys config requested hasExec execOk fresh ws0).trace =
          [] ∧
        (runPipeline ["a", "b"] reqs
          (fun s => if s = "a" then ["b"] else if s = "b" then ["a"] else [])
          vtok userKeys config requested hasExec execOk fresh ws0).err =
          some .circularDependency) :=
  c6_flatten_dag ["a", "b"]
    (fun s => if s = "a" then ["b"] else if s = "b" then ["a"] else [])
    (by decide) (by decide)

/-- `Reaches`-closure of the second loop: once a stage is in the stale set
handed to `propagateStale` over a topologically sorted sequence, its whole
downstream cone ends up stale. -/
theorem reaches_stale [DecidableEq U] (seq : List String)
    (deps : String → List String) (hnd : seq.Nodup)
    (htopo : ∀ x ∈ seq, ∀ p ∈ deps x, ListBefore p x seq)
    (seqKeys : List String) (exp : String → List (String × Option U))
    (cur : String → Option U) (stale0 res : List String)
    (hprop : propagateStale seqKeys deps exp cur seq stale0 = .ok res)
    (s t : String) (hs : s ∈ stale0) (hreach : Reaches deps seq s t) :
    t ∈ res := by
  induction hreach with
  | refl => exact propagate_mono seqKeys deps exp cur seq hprop s hs
  | step hr hp ht ihr =>
    rename_i s' p' t'
    exact propagate_parent_mark seqKeys deps exp cur seq hnd hprop ht hp ihr
      (Or.inr (htopo t' ht p' hp))

/-- C4: a stage whose valid sidecar stores a required config value that is
absent or different from the current flat-config value is marked stale
(requested or not — the check of lines 290-300 has no `is_requested`
guard), and so is every stage reachable downstream from it. -/
theorem c4_config_sensitivity [DecidableEq V] [DecidableEq T] [DecidableEq U]
    (seq : List String) (deps cfgKeys : String → List String)
    (vtok : String → Option T) (config : String → V)
    (requested : List String) (ws : String → StageDisk V T U)
    (hnd : seq.Nodup)
    (htopo : ∀ x ∈ seq, ∀ p ∈ deps x, ListBefore p x seq)
    (s : String) (hs : s ∈ seq) (sc : Sidecar V T U)
    (hsc : (ws s).sidecar = some sc)
    (k : String) (hk : k ∈ cfgKeys s)
    (hmismatch : ¬ sc.cfg.lookup k = some (config k))
    (st : ScanState V T U) (stale : List String)
    (hrun : computeStale seq deps cfgKeys vtok config requested ws =
      .ok (st, stale)) :
    ∀ t, Reaches deps seq s t → t ∈ stale := by
  simp only [computeStale] at hrun
  split at hrun
  · cases hrun
  · rename_i staleRes hprop
    cases hrun
    intro t hreach
    refine reaches_stale seq deps hnd htopo seq _ _ _ _ hprop s t ?_ hreach
    exact scanStale_mark ws vtok cfgKeys config requested seq
      (initScan requested) s hs
      (fun st' => scanStep_cfg_mark ws vtok cfgKeys config requested s st' sc
        hsc ⟨k, hk, hmismatch⟩)

theorem c4_config_sensitivity_witness :
    "s" ∈ ["s"] := by
  have h : computeStale ["s"] (fun _ => []) (fun _ => ["k"])
      (fun _ => (none : Option Int)) (fun _ => (1 : Int)) []
      (fun _ => (⟨some ⟨(0 : Int), [], none, [("k", 2)]⟩, true, true⟩ :
        StageDisk Int Int Int)) = .ok
      (⟨["s"], Function.update (fun _ => []) "s" [],
        Function.update (fun _ => none) "s" (some (0 : Int))⟩, ["s"]) := rfl
  exact c4_config_sensitivity ["s"] (fun _ => []) (fun _ => ["k"])
    (fun _ => (none : Option Int)) (fun _ => (1 : Int)) []
    (fun _ => ⟨some ⟨(0 : Int), [], none, [("k", 2)]⟩, true, true⟩)
    (by decide) (by intro x hx p hp; cases hp) "s" (by decide)
    ⟨(0 : Int), [], none, [("k", 2)]⟩
    rfl "k" (by decide) (by decide) _ _ h "s" (Reaches.refl "s")

/-- C5: the transitive-staleness loop marks a not-yet-stale stage stale when
some declared upstream is stale or requested (requested stages seed the
stale set, so "stale or requested" collapses to membership in the stale
set), or when a recorded `expected_uuids` entry differs from the parent's
current uuid; consequently a stage whose sidecar was deleted drags its
entire downstream cone into the stale set, whatever the downstream's own
configuration, token, result and cache say. -/
theorem c5_upstream_identity [DecidableEq V] [DecidableEq T] [DecidableEq U]
    (seq : List String) (deps cfgKeys : String → List String)
    (vtok : String → Option T) (config : String → V)
    (requested : List String) (ws : String → StageDisk V T U)
    (hnd : seq.Nodup)
    (htopo : ∀ x ∈ seq, ∀ p ∈ deps x, ListBefore p x seq)
    (st : ScanState V T U) (stale : List String)
    (hrun : computeStale seq deps cfgKeys vtok config requested ws =
      .ok (st, stale)) :
    (∀ t ∈ seq, (∃ p ∈ deps t, p ∈ requested ∨
      (p ∈ stale ∧ ListBefore p t seq)) → t ∈ stale) ∧
    (∀ t ∈ seq, (∀ pe ∈ st.exp t, pe.1 ∈ seq) →
      (∃ pe ∈ st.exp t, ¬ pe.2 = st.cur pe.1) → t ∈ stale) ∧
    (∀ u, u ∈ seq → (ws u).sidecar = none →
      ∀ t, Reaches deps seq u t → t ∈ stale) := by
  simp only [computeStale] at hrun
  split at hrun
  · cases hrun
  · rename_i staleRes hprop
    cases hrun
    have hreq : ∀ p ∈ requested,
        p ∈ (scanStale ws vtok cfgKeys config requested seq
          (initScan requested)).stale := fun p hp =>
      scanStale_mono ws vtok cfgKeys config requested seq (initScan requested)
        p hp
    refine ⟨?_, ?_, ?_⟩
    · rintro t ht ⟨p, hp, hcase⟩
      rcases hcase with hh | ⟨hh, hb⟩
      · exact propagate_parent_mark seq deps _ _ seq hnd hprop ht hp
          (propagate_mono seq deps _ _ seq hprop p (hreq p hh))
          (Or.inl (hreq p hh))
      · exact propagate_parent_mark seq deps _ _ seq hnd hprop ht hp hh
          (Or.inr hb)
    · intro t ht hall hex
      exact propagate_check_mark seq deps _ _ seq hprop ht
        (checkExpected_ok_true seq _ hall hex)
    · intro u hu husc t hreach
      refine reaches_stale seq deps hnd htopo seq _ _ _ _ hprop u t ?_ hreach
      by_cases hureq : u ∈ requested
      · exact hreq u hureq
      · exact scanStale_mark ws vtok cfgKeys config requested seq
          (initScan requested) u hu
          (fun st' => scanStep_invalid_mark ws vtok cfgKeys config requested
            u st' husc hureq)

theorem c5_upstream_identity_witness :
    "t" ∈ ["t", "u"] := by
  have h : computeStale ["u", "t"] (fun s => if s = "t" then ["u"] else [])
      (fun _ => []) (fun _ => (none : Option Int)) (fun _ => (0 : Int)) []
      (fun s => if s = "u" then (⟨none, true, true⟩ : StageDisk Int Int Int)
        else ⟨some ⟨0, [("u", some 0)], none, []⟩, true, true⟩) = .ok
      (⟨["u"], Function.update (fun _ => []) "t" [("u", some (0 : Int))],
        Function.update (fun _ => none) "t" (some (0 : Int))⟩,
        ["t", "u"]) := rfl
  exact (c5_upstream_identity ["u", "t"]
    (fun s => if s = "t" then ["u"] else [])
    (fun _ => []) (fun _ => (none : Option Int)) (fun _ => (0 : Int)) []
    (fun s => if s = "u" then (⟨none, true, true⟩ : StageDisk Int Int Int) else
      ⟨some ⟨0, [("u", some 0)], none, []⟩, true, true⟩)
    (by decide)
    (by
      intro x hx p hp
      simp only [List.mem_cons, List.not_mem_nil, or_false] at hx
      rcases hx with h | h <;> subst h <;> simp at hp
      subst hp
      exact listBefore_head (by decide) (by decide))
    _ _ h).2.2 "u" (by decide) rfl "t"
    (Reaches.step (Reaches.refl "u") (by decide) (by decide))

/-- C8: failure semantics of the execution loop. If `execute` raises at
stage `s`: the run aborts with no event for any later stage and the disk of
every later stage untouched; `s`'s sidecar and result are exactly as before
the run (only its cache directory was cleared), so `s` stays stale for the
next run; stale stages executed earlier in the same run keep their freshly
written sidecars and results. Independently, every sidecar write in the
trace occurs strictly after the result write of the same stage. -/
theorem c8_failure_semantics [DecidableEq V] [DecidableEq T] [DecidableEq U]
    (deps cfgKeys : String → List String) (vtok : String → Option T)
    (config : String → V) (hasExec execOk : String → Bool) (fresh : Nat → U)
    (stale : List String) (seq : List String) (hnd : seq.Nodup)
    (cur0 : String → Option U) (ws0 : String → StageDisk V T U) :
    (∀ s, (execPhase deps cfgKeys vtok config hasExec execOk fresh stale
        seq 0 cur0 ws0 []).err = some (.stageFailed s) →
      s ∈ seq ∧ s ∈ stale ∧ hasExec s = true ∧ execOk s = false ∧
      (execPhase deps cfgKeys vtok config hasExec execOk fresh stale
        seq 0 cur0 ws0 []).ws s =
        ⟨(ws0 s).sidecar, (ws0 s).hasResult, true⟩ ∧
      Event.wroteResult s ∉ (execPhase deps cfgKeys vtok config hasExec execOk
        fresh stale seq 0 cur0 ws0 []).trace ∧
      Event.wroteSidecar s ∉ (execPhase deps cfgKeys vtok config hasExec
        execOk fresh stale seq 0 cur0 ws0 []).trace ∧
      (∀ t, ListBefore s t seq →
        (execPhase deps cfgKeys vtok config hasExec execOk fresh stale
          seq 0 cur0 ws0 []).ws t = ws0 t ∧
        ∀ ev ∈ (execPhase deps cfgKeys vtok config hasExec execOk fresh stale
          seq 0 cur0 ws0 []).trace, eventStage ev ≠ t) ∧
      (∀ t, ListBefore t s seq → t ∈ stale →
        ∃ sc, (execPhase deps cfgKeys vtok config hasExec execOk fresh stale
            seq 0 cur0 ws0 []).ws t = StageDisk.mk (some sc) true true ∧
          Event.wroteSidecar t ∈ (execPhase deps cfgKeys vtok config hasExec
            execOk fresh stale seq 0 cur0 ws0 []).trace)) ∧
    (∀ t, Event.wroteSidecar t ∈ (execPhase deps cfgKeys vtok config hasExec
        execOk fresh stale seq 0 cur0 ws0 []).trace →
      ListBefore (Event.wroteResult t) (Event.wroteSidecar t)
        (execPhase deps cfgKeys vtok config hasExec execOk fresh stale
          seq 0 cur0 ws0 []).trace) :=
  ⟨fun s herr => execPhase_failure deps cfgKeys vtok config hasExec execOk
      fresh stale seq hnd 0 cur0 ws0 s herr,
    fun t ht => execPhase_result_before_sidecar deps cfgKeys vtok config
      hasExec execOk fresh stale seq hnd 0 cur0 ws0 t ht⟩

theorem c8_failure_semantics_witness :
    ListBefore (Event.wroteResult "a") (Event.wroteSidecar "a")
      (execPhase (fun _ => []) (fun _ => []) (fun _ => (none : Option Int))
        (fun _ => (0 : Int)) (fun _ => true) (fun s => !(s == "b"))
        (fun n => n) ["a", "b", "c"] ["a", "b", "c"] 0 (fun _ => none)
        (fun _ => ⟨none, false, false⟩) []).trace :=
  (c8_failure_semantics (fun _ => []) (fun _ => [])
    (fun _ => (none : Option Int)) (fun _ => (0 : Int)) (fun _ => true)
    (fun s => !(s == "b")) (fun n => n) ["a", "b", "c"] ["a", "b", "c"]
    (by decide) (fun _ => none) (fun _ => ⟨none, false, false⟩)).2 "a"
    (by decide)

/-- C7 (amended): when every required key of every discovered stage is
present in the user configuration, two stages declaring the same key with
different non-null defaults make the engine fail with
`DefaultValueConflict` before any stage execution (when some required key
is missing, `MissingConfigKey` fires first — see the counterexample); and
when for every config key at most one distinct non-null default is
declared, the checks pass, so a null default never participates in a
conflict. -/
theorem c7_default_conflict_amended [DecidableEq V] [DecidableEq T]
    [DecidableEq U] (keys : List String)
    (reqs : String → List (String × Option V)) (userKeys : List String)
    (hpresent : ∀ s ∈ keys, ∀ kv ∈ reqs s, kv.1 ∈ userKeys) :
    (∀ s1 s2 k d1 d2, s1 ∈ keys → s2 ∈ keys →
      (k, some d1) ∈ reqs s1 → (k, some d2) ∈ reqs s2 → d1 ≠ d2 →
      checkConfig (keys.map (fun s => (s, reqs s))) userKeys =
        .error .defaultConflict ∧
      ∀ (deps : String → List String) (vtok : String → Option T)
        (config : String → V) (requested : List String)
        (hasExec execOk : String → Bool) (fresh : Nat → U)
        (ws0 : String → StageDisk V T U),
        (runPipeline keys reqs deps vtok userKeys config requested hasExec
          execOk fresh ws0).err = some .cfgDefaultConflict ∧
        (runPipeline keys reqs deps vtok userKeys config requested hasExec
          execOk fresh ws0).trace = []) ∧
    ((∀ k ∈ userKeys,
        (declaredDefaults (keys.map (fun s => (s, reqs s))) k).length ≤ 1) →
      checkConfig (keys.map (fun s => (s, reqs s))) userKeys =
        .ok userKeys) := by
  have hmiss : ¬ ((keys.map (fun s => (s, reqs s))).any
      (fun sd => sd.2.any (fun kv => kv.1 ∉ userKeys)) = true) := by
    simp only [List.any_eq_true, List.mem_map, decide_eq_true_eq, not_exists,
      not_and]
    rintro sd ⟨s, hs, rfl⟩ kv hkv hno
    exact hno (hpresent s hs kv hkv)
  constructor
  · intro s1 s2 k d1 d2 hs1 hs2 hk1 hk2 hne
    have hd1 : d1 ∈ declaredDefaults (keys.map (fun s => (s, reqs s))) k := by
      simp only [declaredDefaults, List.mem_dedup, List.mem_flatMap,
        List.mem_map]
      refine ⟨(s1, reqs s1), ⟨s1, hs1, rfl⟩, ?_⟩
      simp only [List.mem_filterMap]
      exact ⟨(k, some d1), hk1, by simp⟩
    have hd2 : d2 ∈ declaredDefaults (keys.map (fun s => (s, reqs s))) k := by
      simp only [declaredDefaults, List.mem_dedup, List.mem_flatMap,
        List.mem_map]
      refine ⟨(s2, reqs s2), ⟨s2, hs2, rfl⟩, ?_⟩
      simp only [List.mem_filterMap]
      exact ⟨(k, some d2), hk2, by simp⟩
    have hconf : userKeys.any (fun k =>
        1 < (declaredDefaults (keys.map (fun s => (s, reqs s))) k).length) =
        true := by
      simp only [List.any_eq_true, decide_eq_true_eq]
      exact ⟨k, hpresent s1 hs1 (k, some d1) hk1,
        one_lt_length_of_two_mem hd1 hd2 hne⟩
    have hcc : checkConfig (keys.map (fun s => (s, reqs s))) userKeys =
        .error .defaultConflict := by
      simp only [checkConfig]
      rw [if_neg hmiss, if_pos hconf]
    refine ⟨hcc, ?_⟩
    intro deps vtok config requested hasExec execOk fresh ws0
    simp [runPipeline, hcc]
  · intro hone
    have hnoconf : ¬ (userKeys.any (fun k =>
        1 < (declaredDefaults (keys.map (fun s => (s, reqs s))) k).length) =
        true) := by
      simp only [List.any_eq_true, decide_eq_true_eq, not_exists, not_and,
        not_lt]
      intro k hk
      exact hone k hk
    have hfill : userKeys ++ userKeys.filter (fun k => k ∉ userKeys) =
        userKeys := by
      have hnil : userKeys.filter (fun k => k ∉ userKeys) = [] := by
        rw [List.filter_eq_nil_iff]
        intro k hk
        simp [hk]
      rw [hnil, List.append_nil]
    simp only [checkConfig]
    rw [if_neg hmiss, if_neg hnoconf]
    rw [hfill]
    rw [if_neg hmiss]

theorem c7_default_conflict_amended_witness :
    checkConfig (["s1", "s2"].map (fun s =>
      (s, if s = "s1" then [("k", some "x")] else [("k", some "y")])))
      ["k"] = .error .defaultConflict ∧
    ∀ (deps : String → List String) (vtok : String → Option Int)
      (config : String → String) (requested : List String)
      (hasExec execOk : String → Bool) (fresh : Nat → Int)
      (ws0 : String → StageDisk String Int Int),
      (runPipeline ["s1", "s2"] (fun s =>
          (if s = "s1" then [("k", some "x")] else [("k", some "y")]))
        deps vtok ["k"] config requested hasExec execOk fresh ws0).err =
        some .cfgDefaultConflict ∧
      (runPipeline ["s1", "s2"] (fun s =>
          (if s = "s1" then [("k", some "x")] else [("k", some "y")]))
        deps vtok ["k"] config requested hasExec execOk fresh ws0).trace =
        [] :=
  (c7_default_conflict_amended ["s1", "s2"]
    (fun s => (if s = "s1" then [("k", some "x")] else [("k", some "y")]))
    ["k"] (by decide)).1 "s1" "s2" "k" "x" "y" (by decide) (by decide)
    (by decide) (by decide) (by decide)

/-- Inversion of a successful staleness analysis into its two phases. -/
theorem computeStale_ok_inv [DecidableEq V] [DecidableEq T] [DecidableEq U]
    (seq : List String) (deps cfgKeys : String → List String)
    (vtok : String → Option T) (config : String → V)
    (requested : List String) (ws : String → StageDisk V T U)
    (st : ScanState V T U) (stale : List String)
    (h : computeStale seq deps cfgKeys vtok config requested ws =
      .ok (st, stale)) :
    st = scanStale ws vtok cfgKeys config requested seq (initScan requested) ∧
    propagateStale seq deps st.exp st.cur seq st.stale = .ok stale := by
  simp only [computeStale] at h
  split at h
  · cases h
  · rename_i staleRes hprop
    cases h
    exact ⟨rfl, hprop⟩

/-- `runOnce` in terms of its two phases when the analysis succeeds. -/
theorem runOnce_ok_eq [DecidableEq V] [DecidableEq T] [DecidableEq U]
    (seq : List String) (deps cfgKeys : String → List String)
    (vtok : String → Option T) (config : String → V)
    (requested : List String) (hasExec execOk : String → Bool)
    (fresh : Nat → U) (ws0 : String → StageDisk V T U)
    (st : ScanState V T U) (stale : List String)
    (h : computeStale seq deps cfgKeys vtok config requested ws0 =
      .ok (st, stale)) :
    runOnce seq deps cfgKeys vtok config requested hasExec execOk fresh ws0 =
      ⟨stale, st.exp, st.cur,
        (execPhase deps cfgKeys vtok config hasExec execOk fresh stale seq 0
          st.cur ws0 []).ws,
        (execPhase deps cfgKeys vtok config hasExec execOk fresh stale seq 0
          st.cur ws0 []).cur,
        (execPhase deps cfgKeys vtok config hasExec execOk fresh stale seq 0
          st.cur ws0 []).trace,
        (execPhase deps cfgKeys vtok config hasExec execOk fresh stale seq 0
          st.cur ws0 []).err⟩ := by
  simp only [runOnce, h]

/-- C2 (amended): the original claim (second run's stale set empty) is
false, because line 230 seeds the stale set with the requested stages on
every run. What holds instead: after a successful run, running again with
the same configuration, stage code, requested set and the workspace the
first run left behind re-executes exactly the requested stages and their
transitive downstream cone — nothing else is stale on the second run. The
sequence is topologically sorted without duplicates and each prior
sidecar's expected-uuid map mentions only declared upstreams (the engine
itself only ever writes such sidecars). -/
theorem c2_idempotence_amended [DecidableEq V] [DecidableEq T] [DecidableEq U]
    (seq : List String) (deps cfgKeys : String → List String)
    (vtok : String → Option T) (config : String → V)
    (requested : List String) (hasExec execOk : String → Bool)
    (fresh : Nat → U) (ws0 : String → StageDisk V T U)
    (hnd : seq.Nodup)
    (htopo : ∀ x ∈ seq, ∀ p ∈ deps x, ListBefore p x seq)
    (hexp0 : ∀ s ∈ seq, ∀ sc, (ws0 s).sidecar = some sc →
      ∀ pe ∈ sc.expected, pe.1 ∈ deps s)
    (hok : (runOnce seq deps cfgKeys vtok config requested hasExec execOk
      fresh ws0).err = none) :
    ∀ t, t ∈ (runOnce seq deps cfgKeys vtok config requested hasExec execOk
        fresh (runOnce seq deps cfgKeys vtok config requested hasExec execOk
          fresh ws0).ws).stale ↔
      ∃ r ∈ requested, Reaches deps seq r t := by
  -- Phase split of run 1.
  obtain ⟨st1, stale1, hcs1⟩ : ∃ st1 stale1,
      computeStale seq deps cfgKeys vtok config requested ws0 =
        .ok (st1, stale1) := by
    cases hc : computeStale seq deps cfgKeys vtok config requested ws0 with
    | error e =>
      exfalso
      simp [runOnce, hc] at hok
    | ok p =>
      obtain ⟨a, b⟩ := p
      exact ⟨a, b, rfl⟩

  obtain ⟨hst1, hprop1⟩ := computeStale_ok_inv seq deps cfgKeys vtok config
    requested ws0 st1 stale1 hcs1
  obtain ⟨hst1, hprop1⟩ := computeStale_ok_inv seq deps cfgKeys vtok config
    requested ws0 st1 stale1 hcs1
  subst hst1
  set S1 := scanStale ws0 vtok cfgKeys config requested seq
    (initScan requested) with hS1
  rw [runOnce_ok_eq seq deps cfgKeys vtok config requested hasExec execOk
    fresh ws0 S1 stale1 hcs1] at hok ⊢
  set E1 := execPhase deps cfgKeys vtok config hasExec execOk fresh stale1 seq
    0 S1.cur ws0 [] with hE1
  have herr1 : E1.err = none := hok
  have herr1x : (execPhase deps cfgKeys vtok config hasExec execOk fresh stale1
      seq 0 S1.cur ws0 []).err = none := hE1 ▸ herr1
  have htopo' : ∀ x ∈ seq, ∀ p ∈ deps x, p ∉ seq ∨ ListBefore p x seq :=
    fun x hx p hp => Or.inr (htopo x hx p hp)
  have hpmem : ∀ x ∈ seq, ∀ p ∈ deps x, p ∈ seq :=
    fun x hx p hp => (htopo x hx p hp).1
  have hreqS1 : ∀ r ∈ requested, r ∈ S1.stale := by
    intro r hr
    rw [hS1]
    exact scanStale_mono ws0 vtok cfgKeys config requested seq
      (initScan requested) r hr
  have hreq1 : ∀ r ∈ requested, r ∈ stale1 := fun r hr =>
    propagate_mono seq deps S1.exp S1.cur seq hprop1 r (hreqS1 r hr)
  have hS1sub : ∀ x ∈ S1.stale, x ∈ stale1 := fun x hx =>
    propagate_mono seq deps S1.exp S1.cur seq hprop1 x hx
  have hnot1 : ∀ x ∈ seq, x ∉ stale1 →
      ScanPasses (ws0 x) (vtok x) (cfgKeys x) config (x ∈ requested) := by
    intro x hx hxns
    refine scan_passes_of_not_stale ws0 vtok cfgKeys config requested seq
      (initScan requested) x hx ?_
    intro hmem
    refine hxns (hS1sub x ?_)
    rw [hS1]
    exact hmem
  have hskip1 : ∀ x, x ∉ stale1 → E1.ws x = ws0 x ∧ E1.cur x = S1.cur x := by
    intro x hx
    rw [hE1]
    exact execPhase_skip_not_stale deps cfgKeys vtok config hasExec execOk
      fresh stale1 seq 0 S1.cur ws0 [] x hx
  have hwrites1 : ∀ t ∈ seq, t ∈ stale1 → ∃ u, E1.ws t =
      ⟨some ⟨u, (deps t).map (fun p => (p, E1.cur p)), vtok t,
        filterConfig config (cfgKeys t)⟩, true, true⟩ ∧ E1.cur t = some u := by
    intro t ht hts
    rw [hE1]
    exact execPhase_writes deps cfgKeys vtok config hasExec execOk fresh stale1
      seq 0 S1.cur ws0 [] t hnd htopo' herr1x ht hts
  have hside1 : ∀ x ∈ seq, x ∉ stale1 → ∃ sc, (ws0 x).sidecar = some sc := by
    intro x hx hxns
    have hP := hnot1 x hx hxns
    have hxreq : x ∉ requested := fun hxr => hxns (hreq1 x hxr)
    cases hsc : (ws0 x).sidecar with
    | none => exact absurd (hP.1 hsc) hxreq
    | some sc => exact ⟨sc, rfl⟩
  set S2 := scanStale E1.ws vtok cfgKeys config requested seq
    (initScan requested) with hS2
  have hcur12 : ∀ x ∈ seq, S2.cur x = E1.cur x := by
    intro x hx
    by_cases hxs : x ∈ stale1
    · obtain ⟨u, hwx, hcx⟩ := hwrites1 x hx hxs
      have h2 : S2.cur x = some u := by
        rw [hS2]
        exact scanStale_cur_valid E1.ws vtok cfgKeys config requested seq
          (initScan requested) x ⟨u, (deps x).map (fun p => (p, E1.cur p)),
            vtok x, filterConfig config (cfgKeys x)⟩ hx (by rw [hwx])
      rw [h2, hcx]
    · obtain ⟨hwx, hcx⟩ := hskip1 x hxs
      obtain ⟨sc, hsc⟩ := hside1 x hx hxs
      have h2 : S2.cur x = some sc.uuid := by
        rw [hS2]
        exact scanStale_cur_valid E1.ws vtok cfgKeys config requested seq
          (initScan requested) x sc hx (by rw [hwx, hsc])
      have h1 : S1.cur x = some sc.uuid := by
        rw [hS1]
        exact scanStale_cur_valid ws0 vtok cfgKeys config requested seq
          (initScan requested) x sc hx hsc
      rw [h2, hcx, h1]
  have hpass2 : ∀ x ∈ seq, x ∉ requested →
      ScanPasses (E1.ws x) (vtok x) (cfgKeys x) config (x ∈ requested) := by
    intro x hx hxreq
    by_cases hxs : x ∈ stale1
    · obtain ⟨u, hwx, -⟩ := hwrites1 x hx hxs
      rw [hwx]
      refine ⟨by simp, by simp, by simp, ?_⟩
      intro sc hsc
      simp only [Option.some.injEq] at hsc
      subst hsc
      refine ⟨fun hne => absurd rfl hne, ?_⟩
      intro k hk
      exact lookup_filterConfig config (cfgKeys x) k hk
    · obtain ⟨hwx, -⟩ := hskip1 x hxs
      rw [hwx]
      exact hnot1 x hx hxs
  have hchecks2 : ∀ t ∈ seq,
      checkExpected seq S2.cur (S2.exp t) = .ok false := by
    intro t ht
    by_cases hts : t ∈ stale1
    · obtain ⟨u, hwt, hct⟩ := hwrites1 t ht hts
      have hexp : S2.exp t = (deps t).map (fun p => (p, E1.cur p)) := by
        rw [hS2]
        exact scanStale_exp_valid E1.ws vtok cfgKeys config requested seq
          (initScan requested) t ⟨u, (deps t).map (fun p => (p, E1.cur p)),
            vtok t, filterConfig config (cfgKeys t)⟩ ht (by rw [hwt])
      rw [hexp]
      refine checkExpected_ok_false seq S2.cur ?_
      intro pe hpe
      obtain ⟨p, hp, rfl⟩ := List.mem_map.mp hpe
      exact ⟨hpmem t ht p hp, (hcur12 p (hpmem t ht p hp)).symm⟩
    · obtain ⟨sc, hsc⟩ := hside1 t ht hts
      obtain ⟨hwt, -⟩ := hskip1 t hts
      have hexp2t : S2.exp t = sc.expected := by
        rw [hS2]
        exact scanStale_exp_valid E1.ws vtok cfgKeys config requested seq
          (initScan requested) t sc ht (by rw [hwt, hsc])
      have hexp1t : S1.exp t = sc.expected := by
        rw [hS1]
        exact scanStale_exp_valid ws0 vtok cfgKeys config requested seq
          (initScan requested) t sc ht hsc
      have hc1 : checkExpected seq S1.cur (S1.exp t) = .ok false :=
        propagate_not_stale_check seq deps S1.exp S1.cur seq hprop1 ht hts
      have hinv := checkExpected_false_inv seq S1.cur (hexp1t ▸ hc1)
      rw [hexp2t]
      refine checkExpected_ok_false seq S2.cur ?_
      intro pe hpe
      obtain ⟨hpseq, hpval⟩ := hinv pe hpe
      have hpdep : pe.1 ∈ deps t := hexp0 t ht sc hsc pe hpe
      have hpns : pe.1 ∉ stale1 := by
        intro hpin
        exact hts (propagate_parent_mark seq deps S1.exp S1.cur seq hnd hprop1
          ht hpdep hpin (Or.inr (htopo t ht pe.1 hpdep)))
      obtain ⟨-, hcx⟩ := hskip1 pe.1 hpns
      refine ⟨hpseq, ?_⟩
      rw [hcur12 pe.1 hpseq, hcx, ← hpval]
  have hS2req : ∀ x ∈ S2.stale, x ∈ requested := by
    intro x hx
    have hx' : x ∈ (scanStale E1.ws vtok cfgKeys config requested seq
        (initScan requested)).stale := by rw [← hS2]; exact hx
    rcases scanStale_stale_sub E1.ws vtok cfgKeys config requested seq
      (initScan requested) x hx' with h | h
    · exact h
    · by_cases hxreq : x ∈ requested
      · exact hxreq
      · exact absurd hx' (scanStale_no_new E1.ws vtok cfgKeys config requested
          seq (initScan requested) x hxreq (fun _ => hpass2 x h hxreq))
  obtain ⟨res2, hprop2⟩ := propagate_ok seq deps S2.exp S2.cur seq S2.stale
    (fun t ht => ⟨false, hchecks2 t ht⟩)
  have hcs2 : computeStale seq deps cfgKeys vtok config requested E1.ws =
      .ok (S2, res2) := by
    simp only [computeStale]
    rw [← hS2, hprop2]
  show ∀ t, t ∈ (runOnce seq deps cfgKeys vtok config requested hasExec
      execOk fresh E1.ws).stale ↔ ∃ r ∈ requested, Reaches deps seq r t
  rw [runOnce_ok_eq seq deps cfgKeys vtok config requested hasExec execOk
    fresh E1.ws S2 res2 hcs2]
  show ∀ t, t ∈ res2 ↔ ∃ r ∈ requested, Reaches deps seq r t
  intro t
  constructor
  · have main : ∀ n, ∀ x, seq.indexOf x = n → x ∈ res2 →
        ∃ r ∈ requested, Reaches deps seq r x := by
      intro n
      induction n using Nat.strong_induction_on with
      | _ n ihn =>
        intro x hidx hx
        rcases propagate_inv seq deps S2.exp S2.cur seq hnd hprop2 hx with
          h | ⟨hxseq, hcase⟩
        · exact ⟨x, hS2req x h, Reaches.refl x⟩
        · rcases hcase with ⟨p, hp, hpres, hppos⟩ | hce
          · rcases hppos with hpscan | hpbef
            · exact ⟨p, hS2req p hpscan,
                Reaches.step (Reaches.refl p) hp hxseq⟩
            · obtain ⟨r, hr, hreach⟩ := ihn (seq.indexOf p)
                (hidx ▸ hpbef.2.2) p rfl hpres
              exact ⟨r, hr, Reaches.step hreach hp hxseq⟩
          · have hcf := hchecks2 x hxseq
            rw [hcf] at hce
            simp at hce
    exact main (seq.indexOf t) t rfl
  · rintro ⟨r, hr, hreach⟩
    refine reaches_stale seq deps hnd htopo seq S2.exp S2.cur S2.stale res2
      hprop2 r t ?_ hreach
    rw [hS2]
    exact scanStale_mono E1.ws vtok cfgKeys config requested seq
      (initScan requested) r hr

/-- C2 counterexample: one stage `"a"`, requested, fresh workspace. The
first run of the engine succeeds, yet the second run over the workspace
the first run produced has stale set `["a"]`, not `[]` — the requested set
is re-inserted into the stale set on every run. -/
theorem c2_idempotence_counterexample :
    (runOnce ["a"] (fun _ => []) (fun _ => []) (fun _ => (none : Option Int))
      (fun _ => (0 : Int)) ["a"] (fun _ => true) (fun _ => true)
      (fun n => (n : Int)) (fun _ => (⟨none, false, false⟩ :
        StageDisk Int Int Int))).err = none ∧
    ¬ ((runOnce ["a"] (fun _ => []) (fun _ => []) (fun _ => (none : Option Int))
      (fun _ => (0 : Int)) ["a"] (fun _ => true) (fun _ => true)
      (fun n => (n : Int))
      ((runOnce ["a"] (fun _ => []) (fun _ => []) (fun _ => (none : Option Int))
        (fun _ => (0 : Int)) ["a"] (fun _ => true) (fun _ => true)
        (fun n => (n : Int)) (fun _ => (⟨none, false, false⟩ :
          StageDisk Int Int Int))).ws)).stale = []) := by
  decide

theorem c2_idempotence_amended_witness :
    "b" ∈ (runOnce ["a", "b"] (fun s => if s = "b" then ["a"] else [])
        (fun _ => []) (fun _ => (none : Option Int)) (fun _ => (0 : Int))
        ["b"] (fun _ => true) (fun _ => true) (fun n => (n : Int))
        ((runOnce ["a", "b"] (fun s => if s = "b" then ["a"] else [])
          (fun _ => []) (fun _ => (none : Option Int)) (fun _ => (0 : Int))
          ["b"] (fun _ => true) (fun _ => true) (fun n => (n : Int))
          (fun _ => (⟨none, false, false⟩ : StageDisk Int Int Int))).ws)).stale ↔
      ∃ r ∈ ["b"], Reaches (fun s => if s = "b" then ["a"] else [])
        ["a", "b"] r "b" :=
  c2_idempotence_amended ["a", "b"] (fun s => if s = "b" then ["a"] else [])
    (fun _ => []) (fun _ => (none : Option Int)) (fun _ => (0 : Int)) ["b"]
    (fun _ => true) (fun _ => true) (fun n => (n : Int))
    (fun _ => (⟨none, false, false⟩ : StageDisk Int Int Int))
    (by decide)
    (by
      intro x hx p hp
      simp only [List.mem_cons, List.not_mem_nil, or_false] at hx
      rcases hx with h | h <;> subst h <;> simp at hp
      subst hp
      exact listBefore_head (by decide) (by decide))
    (by intro s hs sc hsc; cases hsc)
    (by decide) "b"

end Eqasim
